import Mathlib

/-!
# Hybrid evidence search: shallow embedding

Shallow embedding of the score-fusion and ranking logic of
`src/lib/evidence-service.ts`:

* the keyword scorer `searchEvidence` (lines 1417-1459),
* the cosine-similarity primitive `cosineSimilarity` (lines 1488-1505),
* the semantic scorer `semanticSearch` (lines 1508-1532),
* the legacy local hybrid combiner `hybridSearch` (lines 1535-1579),
* the vault-backed remote combiner `hybridSearch` (lines 735-831) and its
  collaborator `searchVault` (lines 525-573).

Conventions of the embedding:

* JavaScript numbers are modelled by `ℚ` (exact rationals); the only
  irrational operation in the source, `Math.sqrt`, is modelled by
  `Real.sqrt`, so the cosine similarity is `ℝ`-valued.
* `Math.round` is `round`, Mathlib's `⌊x + 1/2⌋`, which agrees with
  JavaScript `Math.round` (round half towards positive infinity).
* `localStorage`-backed corpus reads (`getAllEvidence`,
  `getAllEvidenceMetadata`) become explicit list parameters.
* `Array.prototype.sort((a, b) => b.score - a.score)` is a stable sort
  (guaranteed by ES2019) by score descending; it is modelled by
  `List.insertionSort` with the reflexive total relation
  `scoreGE x y ↔ y.score ≤ x.score`, which is stable and hence
  extensionally equal to the source sort.
* JavaScript `Map` (insertion-ordered, `set` updates in place) is an
  association list with `mapSet` / `mapGet`.
-/

namespace EvidenceTriage

/-- The `EvidenceCategory` union type of `src/lib/types/evidence.ts`. -/
inductive EvidenceCategory where
  | contract
  | email
  | photo
  | handwritten_note
  | medical_record
  | financial_document
  | legal_filing
  | correspondence
  | report
  | other
deriving DecidableEq, Repr

/-- Status of a vault document reference (`VaultDocumentRef.status`). -/
inductive VaultDocStatus where
  | uploading
  | processing
  | ready
  | failed
deriving DecidableEq, Repr

/-- Status of an evidence item (`EvidenceItem.status`). -/
inductive ItemStatus where
  | uploading
  | processing
  | classifying
  | completed
  | failed
deriving DecidableEq, Repr

/-- `VaultDocumentRef` of `src/lib/types/evidence.ts`. -/
structure VaultDocumentRef where
  vaultId : String
  objectId : String
  filename : String
  contentType : String
  sizeBytes : ℚ
  uploadedAt : String
  status : VaultDocStatus
deriving DecidableEq, Repr

/-- `EvidenceItem` of `src/lib/types/evidence.ts`; optional fields are
`Option`s. The `embedding` field is the stored vector used by the legacy
semantic scorer. -/
structure EvidenceItem where
  id : String
  filename : String
  contentType : String
  sizeBytes : ℚ
  category : EvidenceCategory
  tags : List String
  relevanceScore : ℚ
  extractedText : Option String
  summary : Option String
  dateDetected : Option String
  status : ItemStatus
  error : Option String
  createdAt : String
  thumbnailDataUrl : Option String
  textContent : Option String
  embedding : Option (List ℚ)
  vaultDocRef : Option VaultDocumentRef
  needsSync : Option Bool
deriving DecidableEq, Repr

/-- `EvidenceMetadata` of `src/lib/evidence-service.ts` (lines 39-51). -/
structure EvidenceMetadata where
  id : String
  vaultDocRef : VaultDocumentRef
  category : EvidenceCategory
  tags : List String
  relevanceScore : ℚ
  summary : Option String
  dateDetected : Option String
  extractedText : Option String
  thumbnailDataUrl : Option String
  createdAt : String
  updatedAt : String
deriving DecidableEq, Repr

/-- `VaultSearchResult` of `src/lib/evidence-service.ts` (lines 53-59).
The untyped `metadata?: Record<string, any>` bag is modelled by the three
fields the code actually reads (`contentType`, `size`, `createdAt`),
each optional. -/
structure VaultSearchResult where
  objectId : String
  filename : String
  score : ℚ
  matchedText : Option String
  metadataContentType : Option String
  metadataSize : Option ℚ
  metadataCreatedAt : Option String
deriving DecidableEq, Repr

/-- Category/tag filters of the remote combiner (`filters?` parameter of the
vault `hybridSearch`); an absent or empty filter list is inactive, matching
the `filters?.categories?.length &&` truthiness checks in the source. -/
structure SearchFilters where
  categories : List EvidenceCategory
  tags : List String
deriving DecidableEq, Repr

/-- Contiguous-sublist containment on character lists, the semantics of
JavaScript `String.prototype.includes`. -/
def listContains (hay needle : List Char) : Bool :=
  needle.isPrefixOf hay ||
    match hay with
    | [] => false
    | _ :: t => listContains t needle

/-- JavaScript `hay.includes(needle)`. -/
def strIncludes (hay needle : String) : Bool :=
  listContains hay.data needle.data

/-- JavaScript `String.prototype.toLowerCase`, as a per-character map
(the sources only ever lowercase ASCII search text). -/
def toLowerStr (s : String) : String :=
  String.mk (s.data.map Char.toLower)

/-- Sum of squares of a vector, the `normA` / `normB` accumulators of
`cosineSimilarity`. -/
def sumSq (l : List ℚ) : ℚ :=
  (l.map (fun x => x * x)).sum

/-- The descending-score ordering used by every ranker:
`(a, b) => b.score - a.score`. -/
def scoreGE {α : Type} (x y : α × ℤ) : Prop :=
  y.2 ≤ x.2

instance {α : Type} : DecidableRel (@scoreGE α) :=
  fun x y => inferInstanceAs (Decidable (y.2 ≤ x.2))

instance {α : Type} : IsTotal (α × ℤ) scoreGE :=
  ⟨fun x y => (le_total y.2 x.2).imp id id⟩

instance {α : Type} : IsTrans (α × ℤ) scoreGE :=
  ⟨fun _ _ _ h1 h2 => le_trans h2 h1⟩

/-- `results.sort((a, b) => b.score - a.score)`: stable sort by score
descending. -/
def sortByScoreDesc {α : Type} (l : List (α × ℤ)) : List (α × ℤ) :=
  l.insertionSort scoreGE

/-- `metadataToEvidenceItem` of `src/lib/evidence-service.ts`
(lines 602-619). -/
def metadataToEvidenceItem (metadata : EvidenceMetadata) : EvidenceItem :=
  { id := metadata.id
    filename := metadata.vaultDocRef.filename
    contentType := metadata.vaultDocRef.contentType
    sizeBytes := metadata.vaultDocRef.sizeBytes
    category := metadata.category
    tags := metadata.tags
    relevanceScore := metadata.relevanceScore
    extractedText := metadata.extractedText
    summary := metadata.summary
    dateDetected := metadata.dateDetected
    status :=
      match metadata.vaultDocRef.status with
      | .ready => .completed
      | .failed => .failed
      | _ => .processing
    error := none
    createdAt := metadata.createdAt
    thumbnailDataUrl := metadata.thumbnailDataUrl
    textContent := none
    embedding := none
    vaultDocRef := none
    needsSync := none }

namespace Legacy

open Classical

/-- The per-document raw keyword score of `searchEvidence`
(lines 1425-1446): each weighted field test fires at most once,
on case-insensitive substring containment of the lowercased query. -/
def rawScore (queryLower : String) (item : EvidenceItem) : ℕ :=
  (if strIncludes (toLowerStr item.filename) queryLower then 50 else 0) +
  (if (match item.summary with
       | some s => strIncludes (toLowerStr s) queryLower
       | none => false) then 30 else 0) +
  (if item.tags.any (fun tag => strIncludes (toLowerStr tag) queryLower) then 20 else 0) +
  (if (match item.extractedText with
       | some t => strIncludes (toLowerStr t) queryLower
       | none => false) then 10 else 0)

/-- `const MAX_RAW_SCORE = 110` (line 1423). -/
def MAX_RAW_SCORE : ℚ := 110

/-- Normalization of a raw keyword score (line 1450):
`Math.round((rawScore / MAX_RAW_SCORE) * 100)`. -/
def normalizeScore (raw : ℕ) : ℤ :=
  round ((raw : ℚ) / MAX_RAW_SCORE * 100)

/-- `searchEvidence` (lines 1417-1459), with the `getAllEvidence()` corpus
as an explicit parameter. Pushes each item with positive raw score with its
normalized score, then sorts by score descending. -/
def searchEvidence (query : String) (items : List EvidenceItem) :
    List (EvidenceItem × ℤ) :=
  let queryLower := toLowerStr query
  let results := items.foldl
    (fun acc item =>
      if 0 < rawScore queryLower item then
        acc ++ [(item, normalizeScore (rawScore queryLower item))]
      else acc)
    []
  sortByScoreDesc results

/-- `cosineSimilarity` (lines 1488-1505). After the length guard the index
loop over `a.length` is the zipped sum. The magnitude test compares the
real product of square roots with zero, as the source does. -/
noncomputable def cosineSimilarity (a b : List ℚ) : ℝ :=
  if a.length ≠ b.length then 0
  else if Real.sqrt ((sumSq a : ℚ) : ℝ) * Real.sqrt ((sumSq b : ℚ) : ℝ) = 0 then 0
  else (((List.zipWith (fun x y => x * y) a b).sum : ℚ) : ℝ)
    / (Real.sqrt ((sumSq a : ℚ) : ℝ) * Real.sqrt ((sumSq b : ℚ) : ℝ))

/-- Default `minScore` of `semanticSearch` (line 1510): `0.3`. -/
def defaultMinScore : ℚ := 3 / 10

/-- `semanticSearch` (lines 1508-1532): skip items with absent or empty
embeddings, include an item iff its similarity is at least `minScore`
(compared on the raw similarity), score it `Math.round(similarity * 100)`,
and sort by score descending. -/
noncomputable def semanticSearch (queryEmbedding : List ℚ) (minScore : ℚ)
    (items : List EvidenceItem) : List (EvidenceItem × ℤ) :=
  let results := items.foldl
    (fun acc item =>
      match item.embedding with
      | none => acc
      | some emb =>
        if emb = [] then acc
        else
          let similarity := cosineSimilarity queryEmbedding emb
          let score : ℤ := round (similarity * 100)
          if (minScore : ℝ) ≤ similarity then acc ++ [(item, score)] else acc)
    []
  sortByScoreDesc results

/-- Value type of the legacy combiner's `scoreMap`
(`{ item, keywordScore, semanticScore }`, line 1547). -/
structure ScoreEntry where
  item : EvidenceItem
  keywordScore : ℤ
  semanticScore : ℤ
deriving DecidableEq, Repr

/-- JavaScript `Map.prototype.set` on an insertion-ordered association
list: an existing key keeps its position and gets the new value, a new key
is appended. -/
def mapSet (m : List (String × ScoreEntry)) (k : String) (v : ScoreEntry) :
    List (String × ScoreEntry) :=
  if m.any (fun p => p.1 = k) then
    m.map (fun p => if p.1 = k then (k, v) else p)
  else m ++ [(k, v)]

/-- JavaScript `Map.prototype.get`. -/
def mapGet (m : List (String × ScoreEntry)) (k : String) : Option ScoreEntry :=
  (m.find? (fun p => p.1 = k)).map (fun p => p.2)

/-- The merge step for one semantic result (lines 1555-1562): mutate the
existing entry's `semanticScore` in place, or insert a semantic-only
entry. -/
def mergeSemantic (m : List (String × ScoreEntry)) (item : EvidenceItem)
    (score : ℤ) : List (String × ScoreEntry) :=
  match mapGet m item.id with
  | some existing => mapSet m item.id { existing with semanticScore := score }
  | none => mapSet m item.id ⟨item, 0, score⟩

/-- Default `keywordWeight` of the legacy `hybridSearch` (line 1538). -/
def defaultKeywordWeight : ℚ := 3 / 10

/-- Default `semanticWeight` of the legacy `hybridSearch` (line 1539). -/
def defaultSemanticWeight : ℚ := 7 / 10

/-- The legacy local `hybridSearch` (lines 1535-1579): keyword results are
entered into the score map, semantic results (computed with threshold
`0.2` when a query embedding is supplied) are merged in, each entry gets
`Math.round(keywordScore * keywordWeight + semanticScore * semanticWeight)`,
zero-or-less combined scores are dropped, and the rest is sorted by score
descending. -/
noncomputable def hybridSearch (query : String)
    (queryEmbedding : Option (List ℚ)) (keywordWeight semanticWeight : ℚ)
    (items : List EvidenceItem) : List (EvidenceItem × ℤ) :=
  let keywordResults := searchEvidence query items
  let semanticResults :=
    match queryEmbedding with
    | some qe => semanticSearch qe (1 / 5) items
    | none => []
  let m1 := keywordResults.foldl
    (fun m p => mapSet m p.1.id ⟨p.1, p.2, 0⟩) []
  let m2 := semanticResults.foldl
    (fun m p => mergeSemantic m p.1 p.2) m1
  let results := m2.foldl
    (fun acc e =>
      let combinedScore : ℤ :=
        round ((e.2.keywordScore : ℚ) * keywordWeight
          + (e.2.semanticScore : ℚ) * semanticWeight)
      if 0 < combinedScore then acc ++ [(e.2.item, combinedScore)] else acc)
    []
  sortByScoreDesc results

/-- The contribution of a single item to the keyword result list: `some`
of the scored pair when the raw score is positive, `none` when the item is
skipped. The body of the `items.forEach` loop of `searchEvidence`. -/
def keywordHit (queryLower : String) (item : EvidenceItem) :
    Option (EvidenceItem × ℤ) :=
  if 0 < rawScore queryLower item then
    some (item, normalizeScore (rawScore queryLower item))
  else none

/-- The contribution of a single item to the semantic result list: the body
of the `items.forEach` loop of `semanticSearch`. -/
noncomputable def semanticHit (queryEmbedding : List ℚ) (minScore : ℚ)
    (item : EvidenceItem) : Option (EvidenceItem × ℤ) :=
  match item.embedding with
  | none => none
  | some emb =>
    if emb = [] then none
    else if (minScore : ℝ) ≤ cosineSimilarity queryEmbedding emb then
      some (item, round (cosineSimilarity queryEmbedding emb * 100))
    else none

/-- The keyword score a document contributes to the hybrid fusion: its
normalized keyword score when it matches, `0` when it does not (a document
absent from the keyword result set enters the score map with
`keywordScore = 0`). -/
def kwScoreSpec (query : String) (d : EvidenceItem) : ℤ :=
  if 0 < rawScore (toLowerStr query) d then
    normalizeScore (rawScore (toLowerStr query) d)
  else 0

/-- The semantic score a document contributes to the hybrid fusion at
threshold `t`: `round(similarity * 100)` when it has a nonempty embedding
whose similarity reaches `t`, and `0` otherwise. -/
noncomputable def semScoreSpec (queryEmbedding : List ℚ) (t : ℚ)
    (d : EvidenceItem) : ℤ :=
  match d.embedding with
  | none => 0
  | some emb =>
    if emb = [] then 0
    else if (t : ℝ) ≤ cosineSimilarity queryEmbedding emb then
      round (cosineSimilarity queryEmbedding emb * 100)
    else 0

/-- The pointwise effect of the semantic merge loop on an entry that was
already in the score map: its `semanticScore` is overwritten when some
semantic result has its key, otherwise it is untouched. -/
def updEntry (sem : List (EvidenceItem × ℤ)) (e : String × ScoreEntry) :
    String × ScoreEntry :=
  match sem.find? (fun p => p.1.id = e.1) with
  | some p => (e.1, { e.2 with semanticScore := p.2 })
  | none => e

/-- The combined-score emission step of the legacy combiner (one score-map
entry to an optional scored result). -/
def combinedHit (keywordWeight semanticWeight : ℚ)
    (e : String × ScoreEntry) : Option (EvidenceItem × ℤ) :=
  let combinedScore : ℤ :=
    round ((e.2.keywordScore : ℚ) * keywordWeight
      + (e.2.semanticScore : ℚ) * semanticWeight)
  if 0 < combinedScore then some (e.2.item, combinedScore) else none

end Legacy

namespace Vault

/-- Outcome of the `fetch` to `/api/vault/search` as seen by `searchVault`:
a thrown network error, a non-2xx response, or a 2xx response whose JSON
body may or may not carry a `results` array. -/
inductive VaultResponse where
  | netError
  | httpError
  | ok (results : Option (List VaultSearchResult))
deriving DecidableEq, Repr

/-- `searchVault` (lines 525-573) with its effectful context made
explicit: the stored API key, the stored vault id, and the response of the
single network call. Every failure path returns the empty list, never an
exception; a 2xx response yields `data.results || []`. -/
def searchVault (apiKey : Option String) (vaultId : Option String)
    (response : VaultResponse) : List VaultSearchResult :=
  match apiKey with
  | none => []
  | some _ =>
    match vaultId with
    | none => []
    | some _ =>
      match response with
      | .netError => []
      | .httpError => []
      | .ok results => results.getD []

/-- Opaque stand-in for `new Date().toISOString()` in the synthetic
orphan item (line 798); no ranking behavior depends on it. -/
def currentTimeISO : String := ""

/-- The synthetic placeholder item built for a vault result with no local
metadata (lines 789-800): category `other`, no tags, `needsSync: true`. -/
def mkTempItem (result : VaultSearchResult) : EvidenceItem :=
  { id := "vault-" ++ result.objectId
    filename := if result.filename = "" then "Unknown document" else result.filename
    contentType := result.metadataContentType.getD "application/octet-stream"
    sizeBytes := result.metadataSize.getD 0
    category := .other
    tags := []
    relevanceScore := ((round (result.score * 100) : ℤ) : ℚ)
    extractedText := none
    summary := none
    dateDetected := none
    status := .completed
    error := none
    createdAt := result.metadataCreatedAt.getD currentTimeISO
    thumbnailDataUrl := none
    textContent := none
    embedding := none
    vaultDocRef := none
    needsSync := some true }

/-- The body of the `for (const result of vaultResults)` loop of the vault
`hybridSearch` (lines 760-816): resolve local metadata by `objectId`,
apply category/tag filters (against local metadata when resolved, against
the synthetic defaults when orphaned), and emit the scored item, or `none`
for a `continue`. -/
def processVaultResult (allMetadata : List EvidenceMetadata)
    (filters : SearchFilters) (result : VaultSearchResult) :
    Option (EvidenceItem × ℤ) :=
  match allMetadata.find? (fun m => m.vaultDocRef.objectId = result.objectId) with
  | some metadata =>
    if filters.categories ≠ [] ∧ metadata.category ∉ filters.categories then
      none
    else if filters.tags ≠ [] ∧
        ¬ filters.tags.any (fun tag => metadata.tags.contains tag) then
      none
    else
      some (metadataToEvidenceItem metadata, round (result.score * 100))
  | none =>
    let tempItem := mkTempItem result
    if filters.categories ≠ [] ∧ EvidenceCategory.other ∉ filters.categories then
      none
    else if filters.tags ≠ [] then
      none
    else
      some (tempItem, round (result.score * 100))

/-- The vault-backed `hybridSearch` (lines 735-831), with the vault search
results and the `getAllEvidenceMetadata()` store as explicit parameters:
process each remote result in order, then sort by score descending. -/
def hybridSearch (vaultResults : List VaultSearchResult)
    (allMetadata : List EvidenceMetadata) (filters : SearchFilters) :
    List (EvidenceItem × ℤ) :=
  let results := vaultResults.foldl
    (fun acc result =>
      match processVaultResult allMetadata filters result with
      | some r => acc ++ [r]
      | none => acc)
    []
  sortByScoreDesc results

end Vault

/-! ## Concrete fixtures used by witnesses and counterexamples -/

/-- A minimal evidence item: only the identifier and filename carry
signal, every optional field is absent. -/
def exampleItem (id filename : String) : EvidenceItem :=
  { id := id
    filename := filename
    contentType := ""
    sizeBytes := 0
    category := .other
    tags := []
    relevanceScore := 0
    extractedText := none
    summary := none
    dateDetected := none
    status := .completed
    error := none
    createdAt := ""
    thumbnailDataUrl := none
    textContent := none
    embedding := none
    vaultDocRef := none
    needsSync := none }

/-- A document matching the query "a" in all four weighted fields. -/
def allFieldsItem : EvidenceItem :=
  { exampleItem "1" "a" with
    summary := some "a"
    tags := ["a"]
    extractedText := some "a" }

/-- A document whose filename matches the query "match". -/
def filenameItem : EvidenceItem :=
  exampleItem "k" "match.txt"

/-- A remote vault result with score `0.9` and no local metadata. -/
def orphanResult : VaultSearchResult :=
  { objectId := "obj1"
    filename := "doc.pdf"
    score := 9 / 10
    matchedText := none
    metadataContentType := none
    metadataSize := none
    metadataCreatedAt := none }

/-- A document matching "lease" in its filename only (raw score 50). -/
def leaseNameItem : EvidenceItem :=
  exampleItem "n" "lease.pdf"

/-- A document matching "lease" in its extracted text only
(raw score 10). -/
def leaseTextItem : EvidenceItem :=
  { exampleItem "t" "contract.txt" with extractedText := some "the lease" }

/-- A document with a stored embedding whose cosine similarity with the
query embedding `[1, 0]` is exactly `7/25 = 0.28`. -/
def midSimilarityItem : EvidenceItem :=
  { exampleItem "s" "doc" with embedding := some [7, 24] }

/-! ## Generic helper lemmas -/

/-- A `results.push(...)`-under-condition loop is a `filterMap`. -/
theorem foldl_push_eq {σ β : Type} (g : σ → Option β)
    (step : List β → σ → List β)
    (hstep : ∀ acc x, step acc x =
      match g x with
      | some y => acc ++ [y]
      | none => acc) :
    ∀ (l : List σ) (acc : List β), l.foldl step acc = acc ++ l.filterMap g := by
  intro l
  induction l with
  | nil => intro acc; simp
  | cons x t ih =>
    intro acc
    rw [List.foldl_cons, hstep, List.filterMap_cons]
    cases hx : g x with
    | none => simp [ih]
    | some y => rw [ih]; simp

/-- `any` over a mapped list tests the composed predicate. -/
theorem anyOverMap {α β : Type} (f : α → β) (l : List α) (p : β → Bool) :
    (l.map f).any p = l.any (fun a => p (f a)) := by
  induction l with
  | nil => rfl
  | cons x t ih => simp [List.any_cons, ih]

/-- Membership is invariant under the descending sort. -/
theorem mem_sortByScoreDesc {α : Type} {l : List (α × ℤ)} {p : α × ℤ} :
    p ∈ sortByScoreDesc l ↔ p ∈ l :=
  List.mem_insertionSort scoreGE

/-- The descending sort sorts. -/
theorem sorted_sortByScoreDesc {α : Type} (l : List (α × ℤ)) :
    List.Sorted scoreGE (sortByScoreDesc l) :=
  List.sorted_insertionSort scoreGE l

/-- The descending sort is a permutation. -/
theorem sortByScoreDesc_perm {α : Type} (l : List (α × ℤ)) :
    List.Perm (sortByScoreDesc l) l :=
  List.perm_insertionSort scoreGE l

/-- A list already sorted by score descending is left unchanged (the sort
is stable). -/
theorem sortByScoreDesc_of_sorted {α : Type} {l : List (α × ℤ)}
    (h : List.Sorted scoreGE l) : sortByScoreDesc l = l :=
  h.insertionSort_eq

/-- `round` is monotone. -/
theorem round_le_of_le {α : Type} [LinearOrderedField α] [FloorRing α]
    {x y : α} (h : x ≤ y) : round x ≤ round y := by
  rw [round_eq, round_eq]
  exact Int.floor_le_floor (by linarith)

theorem round_hundred : round ((100 : ℚ)) = 100 := by
  norm_num [round_eq]

theorem round_q_nonneg {x : ℚ} (h : 0 ≤ x) : 0 ≤ round x := by
  have := round_le_of_le h
  simpa using this

namespace Legacy

/-- A positive raw keyword score is at least 10 and at most 110. -/
theorem rawScore_pos_bounds (queryLower : String) (item : EvidenceItem)
    (h : 0 < rawScore queryLower item) :
    10 ≤ rawScore queryLower item ∧ rawScore queryLower item ≤ 110 := by
  unfold rawScore at h ⊢
  cases hb1 : strIncludes (toLowerStr item.filename) queryLower <;>
  cases hb2 : (match item.summary with
               | some s => strIncludes (toLowerStr s) queryLower
               | none => false) <;>
  cases hb3 : item.tags.any (fun tag => strIncludes (toLowerStr tag) queryLower) <;>
  cases hb4 : (match item.extractedText with
               | some t => strIncludes (toLowerStr t) queryLower
               | none => false) <;>
  simp_all

/-- Normalized keyword scores of matching documents lie in `[9, 100]`. -/
theorem normalizeScore_bounds {raw : ℕ} (h10 : 10 ≤ raw) (h110 : raw ≤ 110) :
    9 ≤ normalizeScore raw ∧ normalizeScore raw ≤ 100 := by
  constructor
  · have : ((10 : ℚ)) / 110 * 100 ≤ (raw : ℚ) / 110 * 100 := by
      have : (10 : ℚ) ≤ (raw : ℚ) := by exact_mod_cast h10
      nlinarith
    have h9 : round ((10 : ℚ) / 110 * 100) = 9 := by norm_num [round_eq]
    calc (9 : ℤ) = round ((10 : ℚ) / 110 * 100) := h9.symm
      _ ≤ round ((raw : ℚ) / 110 * 100) := round_le_of_le this
      _ = normalizeScore raw := rfl
  · have : (raw : ℚ) / 110 * 100 ≤ 100 := by
      have : (raw : ℚ) ≤ 110 := by exact_mod_cast h110
      nlinarith
    calc normalizeScore raw = round ((raw : ℚ) / 110 * 100) := rfl
      _ ≤ round ((100 : ℚ)) := round_le_of_le (by simpa [MAX_RAW_SCORE] using this)
      _ = 100 := round_hundred

end Legacy

/-! ## Cauchy-Schwarz for zipped lists, and similarity bounds -/

theorem sumSq_nonneg (l : List ℚ) : 0 ≤ sumSq l := by
  induction l with
  | nil => simp [sumSq]
  | cons x t ih =>
    simp only [sumSq, List.map_cons, List.sum_cons] at *
    nlinarith [sq_nonneg x]

/-- Cauchy-Schwarz for the zipped dot product of two rational vectors. -/
theorem zipWith_mul_sq_le (a : List ℚ) :
    ∀ b : List ℚ,
      ((List.zipWith (fun x y => x * y) a b).sum) ^ 2 ≤ sumSq a * sumSq b := by
  induction a with
  | nil =>
    intro b
    simp [sumSq]
  | cons x ta ih =>
    intro b
    cases b with
    | nil => simp [sumSq]
    | cons y tb =>
      have h := ih tb
      have hA := sumSq_nonneg ta
      have hB := sumSq_nonneg tb
      simp only [List.zipWith_cons_cons, List.sum_cons, sumSq, List.map_cons] at *
      have h1 : (2 * (x * y) * (List.zipWith (fun x y => x * y) ta tb).sum) ^ 2
          ≤ (x ^ 2 * (tb.map (fun x => x * x)).sum
            + (ta.map (fun x => x * x)).sum * y ^ 2) ^ 2 := by
        nlinarith [sq_nonneg (x ^ 2 * (tb.map (fun x => x * x)).sum
            - (ta.map (fun x => x * x)).sum * y ^ 2),
          mul_le_mul_of_nonneg_left h
            (by positivity : (0 : ℚ) ≤ 4 * x ^ 2 * y ^ 2)]
      have h2 : 0 ≤ x ^ 2 * (tb.map (fun x => x * x)).sum
          + (ta.map (fun x => x * x)).sum * y ^ 2 :=
        add_nonneg (mul_nonneg (sq_nonneg x) hB) (mul_nonneg hA (sq_nonneg y))
      have key := le_of_sq_le_sq h1 h2
      nlinarith [key, h]

namespace Legacy

/-- `cosineSimilarity` as a case split on decidable rational conditions:
`0` on mismatched lengths, `0` when either sum of squares vanishes (the
real magnitude is zero exactly then), and the normalized dot product
otherwise. -/
theorem cosineSimilarity_eq (a b : List ℚ) :
    cosineSimilarity a b =
      if a.length ≠ b.length then 0
      else if sumSq a = 0 ∨ sumSq b = 0 then 0
      else (((List.zipWith (fun x y => x * y) a b).sum : ℚ) : ℝ)
            / (Real.sqrt ((sumSq a : ℚ) : ℝ) * Real.sqrt ((sumSq b : ℚ) : ℝ)) := by
  unfold cosineSimilarity
  by_cases hlen : a.length ≠ b.length
  · simp [hlen]
  · simp only [hlen, if_false]
    have hA : (0 : ℝ) ≤ ((sumSq a : ℚ) : ℝ) := by exact_mod_cast sumSq_nonneg a
    have hB : (0 : ℝ) ≤ ((sumSq b : ℚ) : ℝ) := by exact_mod_cast sumSq_nonneg b
    have hmag : (Real.sqrt ((sumSq a : ℚ) : ℝ) * Real.sqrt ((sumSq b : ℚ) : ℝ) = 0)
        ↔ (sumSq a = 0 ∨ sumSq b = 0) := by
      rw [mul_eq_zero, Real.sqrt_eq_zero hA, Real.sqrt_eq_zero hB]
      constructor
      · rintro (h | h)
        · exact Or.inl (by exact_mod_cast h)
        · exact Or.inr (by exact_mod_cast h)
      · rintro (h | h)
        · exact Or.inl (by exact_mod_cast h)
        · exact Or.inr (by exact_mod_cast h)
    by_cases hz : sumSq a = 0 ∨ sumSq b = 0
    · rw [if_pos (hmag.2 hz), if_pos hz]
    · rw [if_neg (fun h => hz (hmag.1 h)), if_neg hz]

/-- The cosine similarity always lies in `[-1, 1]`. -/
theorem cosineSimilarity_bounds (a b : List ℚ) :
    -1 ≤ cosineSimilarity a b ∧ cosineSimilarity a b ≤ 1 := by
  rw [cosineSimilarity_eq]
  by_cases hlen : a.length ≠ b.length
  · simp [hlen]
  · simp only [hlen, if_false]
    by_cases hz : sumSq a = 0 ∨ sumSq b = 0
    · simp [hz]
    · simp only [hz, if_false]
      push_neg at hz
      have hA : (0 : ℝ) < ((sumSq a : ℚ) : ℝ) := by
        have := sumSq_nonneg a
        have : (0 : ℚ) < sumSq a := lt_of_le_of_ne this (Ne.symm hz.1)
        exact_mod_cast this
      have hB : (0 : ℝ) < ((sumSq b : ℚ) : ℝ) := by
        have := sumSq_nonneg b
        have : (0 : ℚ) < sumSq b := lt_of_le_of_ne this (Ne.symm hz.2)
        exact_mod_cast this
      set d : ℝ := (((List.zipWith (fun x y => x * y) a b).sum : ℚ) : ℝ) with hd
      set m : ℝ := Real.sqrt ((sumSq a : ℚ) : ℝ) * Real.sqrt ((sumSq b : ℚ) : ℝ) with hm
      have hmpos : 0 < m := mul_pos (Real.sqrt_pos.2 hA) (Real.sqrt_pos.2 hB)
      have hmsq : m ^ 2 = ((sumSq a : ℚ) : ℝ) * ((sumSq b : ℚ) : ℝ) := by
        rw [hm, mul_pow, Real.sq_sqrt hA.le, Real.sq_sqrt hB.le]
      have hdsq : d ^ 2 ≤ m ^ 2 := by
        rw [hmsq, hd]
        exact_mod_cast zipWith_mul_sq_le a b
      have hdm : d ≤ m := le_of_sq_le_sq hdsq hmpos.le
      have hnegdm : -d ≤ m := le_of_sq_le_sq (by nlinarith [hdsq]) hmpos.le
      constructor
      · rw [neg_le, ← neg_div]
        exact (div_le_one hmpos).2 hnegdm
      · exact (div_le_one hmpos).2 hdm

/-! ## Characterizations of the two scorers -/

/-- The keyword scorer is the descending sort of the per-item keyword
hits, in corpus order. -/
theorem searchEvidence_eq (query : String) (items : List EvidenceItem) :
    searchEvidence query items
      = sortByScoreDesc (items.filterMap (keywordHit (toLowerStr query))) := by
  have h := foldl_push_eq (keywordHit (toLowerStr query))
    (fun acc item =>
      if 0 < rawScore (toLowerStr query) item then
        acc ++ [(item, normalizeScore (rawScore (toLowerStr query) item))]
      else acc)
    (fun acc x => by
      by_cases hx : 0 < rawScore (toLowerStr query) x <;> simp [keywordHit, hx])
    items []
  unfold searchEvidence
  simp only []
  rw [h]
  simp

/-- A pair is in the keyword scorer's output iff the document is in the
corpus, its raw score is positive, and the score is the normalized raw
score. -/
theorem mem_searchEvidence_iff (query : String) (items : List EvidenceItem)
    (d : EvidenceItem) (s : ℤ) :
    (d, s) ∈ searchEvidence query items ↔
      d ∈ items ∧ 0 < rawScore (toLowerStr query) d
        ∧ s = normalizeScore (rawScore (toLowerStr query) d) := by
  rw [searchEvidence_eq, mem_sortByScoreDesc, List.mem_filterMap]
  constructor
  · rintro ⟨a, ha, hhit⟩
    unfold keywordHit at hhit
    split at hhit
    · rw [Option.some_inj, Prod.ext_iff] at hhit
      obtain ⟨h1, h2⟩ := hhit
      subst h1
      exact ⟨ha, by assumption, h2.symm⟩
    · cases hhit
  · rintro ⟨hd, hpos, hs⟩
    refine ⟨d, hd, ?_⟩
    unfold keywordHit
    rw [if_pos hpos, hs]

/-- The semantic scorer is the descending sort of the per-item semantic
hits, in corpus order. -/
theorem semanticSearch_eq (qe : List ℚ) (minScore : ℚ)
    (items : List EvidenceItem) :
    semanticSearch qe minScore items
      = sortByScoreDesc (items.filterMap (semanticHit qe minScore)) := by
  have h := foldl_push_eq (semanticHit qe minScore)
    (fun acc item =>
      match item.embedding with
      | none => acc
      | some emb =>
        if emb = [] then acc
        else
          let similarity := cosineSimilarity qe emb
          let score : ℤ := round (similarity * 100)
          if (minScore : ℝ) ≤ similarity then acc ++ [(item, score)] else acc)
    (fun acc x => by
      unfold semanticHit
      cases hx : x.embedding with
      | none => simp [hx]
      | some emb =>
        by_cases he : emb = []
        · simp [hx, he]
        · by_cases hsim : (minScore : ℝ) ≤ cosineSimilarity qe emb <;>
            simp [hx, he, hsim])
    items []
  unfold semanticSearch
  simp only []
  rw [h]
  simp

/-- A pair is in the semantic scorer's output iff the document is in the
corpus with a nonempty embedding whose similarity with the query embedding
reaches the threshold, scored at the rounded percentage. -/
theorem mem_semanticSearch_iff (qe : List ℚ) (minScore : ℚ)
    (items : List EvidenceItem) (d : EvidenceItem) (s : ℤ) :
    (d, s) ∈ semanticSearch qe minScore items ↔
      d ∈ items ∧ ∃ emb, d.embedding = some emb ∧ emb ≠ []
        ∧ (minScore : ℝ) ≤ cosineSimilarity qe emb
        ∧ s = round (cosineSimilarity qe emb * 100) := by
  rw [semanticSearch_eq, mem_sortByScoreDesc, List.mem_filterMap]
  constructor
  · rintro ⟨a, ha, hhit⟩
    unfold semanticHit at hhit
    cases hx : a.embedding with
    | none => rw [hx] at hhit; cases hhit
    | some emb =>
      rw [hx] at hhit
      simp only [] at hhit
      by_cases he : emb = []
      · rw [if_pos he] at hhit; cases hhit
      · rw [if_neg he] at hhit
        by_cases hsim : (minScore : ℝ) ≤ cosineSimilarity qe emb
        · rw [if_pos hsim, Option.some_inj, Prod.ext_iff] at hhit
          obtain ⟨h1, h2⟩ := hhit
          subst h1
          exact ⟨ha, emb, hx, he, hsim, h2.symm⟩
        · rw [if_neg hsim] at hhit; cases hhit
  · rintro ⟨hd, emb, hemb, hne, hsim, rfl⟩
    refine ⟨d, hd, ?_⟩
    unfold semanticHit
    rw [hemb]
    simp only []
    rw [if_neg hne, if_pos hsim]

/-- Scores in the keyword scorer's output lie in `[9, 100]`. -/
theorem searchEvidence_score_bounds (query : String)
    (items : List EvidenceItem) :
    ∀ p ∈ searchEvidence query items, 9 ≤ p.2 ∧ p.2 ≤ 100 := by
  rintro ⟨d, s⟩ hp
  rw [mem_searchEvidence_iff] at hp
  obtain ⟨hd, hpos, rfl⟩ := hp
  obtain ⟨h10, h110⟩ := rawScore_pos_bounds _ _ hpos
  exact normalizeScore_bounds h10 h110

/-- With a nonnegative threshold, semantic scores lie in `[0, 100]`. -/
theorem semanticSearch_score_bounds (qe : List ℚ) (minScore : ℚ)
    (hms : 0 ≤ minScore) (items : List EvidenceItem) :
    ∀ p ∈ semanticSearch qe minScore items, 0 ≤ p.2 ∧ p.2 ≤ 100 := by
  rintro ⟨d, s⟩ hp
  rw [mem_semanticSearch_iff] at hp
  obtain ⟨hd, emb, hemb, hne, hsim, rfl⟩ := hp
  constructor
  · have hms' : (0 : ℝ) ≤ (minScore : ℝ) := by exact_mod_cast hms
    have h0 : (0 : ℝ) ≤ cosineSimilarity qe emb * 100 := by nlinarith
    have := round_le_of_le h0
    simpa using this
  · have h1 : cosineSimilarity qe emb ≤ 1 := (cosineSimilarity_bounds qe emb).2
    have h100 : cosineSimilarity qe emb * 100 ≤ 100 := by nlinarith
    calc round (cosineSimilarity qe emb * 100)
        ≤ round ((100 : ℝ)) := round_le_of_le h100
      _ = 100 := by norm_num [round_eq]

/-- `filterMap` by a hit function that returns its argument preserves
pairwise distinctness of document ids. -/
theorem pairwise_ne_id_filterMap {f : EvidenceItem → Option (EvidenceItem × ℤ)}
    (hf : ∀ a p, f a = some p → p.1 = a)
    {items : List EvidenceItem}
    (h : List.Pairwise (fun a b : EvidenceItem => a.id ≠ b.id) items) :
    List.Pairwise (fun p q : EvidenceItem × ℤ => p.1.id ≠ q.1.id)
      (items.filterMap f) :=
  List.Pairwise.filterMap f
    (fun a b hab p hp q hq => by
      rw [hf a p (Option.mem_def.1 hp), hf b q (Option.mem_def.1 hq)]
      exact hab)
    h

/-- `keywordHit` returns its argument as the document. -/
theorem keywordHit_fst (ql : String) (a : EvidenceItem)
    (p : EvidenceItem × ℤ) (h : keywordHit ql a = some p) : p.1 = a := by
  unfold keywordHit at h
  split at h
  · rw [Option.some_inj] at h; rw [← h]
  · cases h

/-- `semanticHit` returns its argument as the document. -/
theorem semanticHit_fst (qe : List ℚ) (t : ℚ) (a : EvidenceItem)
    (p : EvidenceItem × ℤ) (h : semanticHit qe t a = some p) : p.1 = a := by
  unfold semanticHit at h
  cases hx : a.embedding with
  | none => rw [hx] at h; cases h
  | some emb =>
    rw [hx] at h
    simp only [] at h
    by_cases he : emb = []
    · rw [if_pos he] at h; cases h
    · rw [if_neg he] at h
      by_cases hsim : (t : ℝ) ≤ cosineSimilarity qe emb
      · rw [if_pos hsim, Option.some_inj] at h; rw [← h]
      · rw [if_neg hsim] at h; cases h

/-- Keyword results of an id-distinct corpus have pairwise distinct ids. -/
theorem pairwise_ne_id_searchEvidence (query : String)
    {items : List EvidenceItem}
    (h : List.Pairwise (fun a b : EvidenceItem => a.id ≠ b.id) items) :
    List.Pairwise (fun p q : EvidenceItem × ℤ => p.1.id ≠ q.1.id)
      (searchEvidence query items) := by
  rw [searchEvidence_eq]
  have hperm := sortByScoreDesc_perm
    (items.filterMap (keywordHit (toLowerStr query)))
  exact (hperm.pairwise_iff (fun hxy => Ne.symm hxy)).2
    (pairwise_ne_id_filterMap (keywordHit_fst (toLowerStr query)) h)

/-- Semantic results of an id-distinct corpus have pairwise distinct
ids. -/
theorem pairwise_ne_id_semanticSearch (qe : List ℚ) (t : ℚ)
    {items : List EvidenceItem}
    (h : List.Pairwise (fun a b : EvidenceItem => a.id ≠ b.id) items) :
    List.Pairwise (fun p q : EvidenceItem × ℤ => p.1.id ≠ q.1.id)
      (semanticSearch qe t items) := by
  rw [semanticSearch_eq]
  have hperm := sortByScoreDesc_perm (items.filterMap (semanticHit qe t))
  exact (hperm.pairwise_iff (fun hxy => Ne.symm hxy)).2
    (pairwise_ne_id_filterMap (semanticHit_fst qe t) h)

/-! ## The score map of the local hybrid combiner -/

/-- Entering keyword results (fresh, pairwise-distinct keys) into the
score map appends them in order. -/
theorem foldl_mapSet_eq (rs : List (EvidenceItem × ℤ)) :
    ∀ m : List (String × ScoreEntry),
      (∀ p ∈ rs, ∀ e ∈ m, e.1 ≠ p.1.id) →
      List.Pairwise (fun p q : EvidenceItem × ℤ => p.1.id ≠ q.1.id) rs →
      rs.foldl (fun m p => mapSet m p.1.id ⟨p.1, p.2, 0⟩) m
        = m ++ rs.map (fun p => (p.1.id, (⟨p.1, p.2, 0⟩ : ScoreEntry))) := by
  induction rs with
  | nil => intro m _ _; simp
  | cons p t ih =>
    intro m hfresh hpair
    obtain ⟨hhead, htail⟩ := List.pairwise_cons.1 hpair
    rw [List.foldl_cons]
    have hany : m.any (fun e => e.1 = p.1.id) = false := by
      simp only [List.any_eq_false, decide_eq_true_eq]
      exact fun e he => hfresh p (List.mem_cons_self p t) e he
    have hset : mapSet m p.1.id ⟨p.1, p.2, 0⟩
        = m ++ [(p.1.id, (⟨p.1, p.2, 0⟩ : ScoreEntry))] := by
      unfold mapSet
      rw [hany]
      simp
    rw [hset, ih]
    · simp
    · intro q hq e he
      rcases List.mem_append.1 he with he | he
      · exact hfresh q (List.mem_cons_of_mem p hq) e he
      · have : e = (p.1.id, (⟨p.1, p.2, 0⟩ : ScoreEntry)) := by simpa using he
        rw [this]
        exact hhead q hq
    · exact htail

/-- Merging semantic results (pairwise-distinct ids) into the score map
updates the `semanticScore` of present keys in place and appends
semantic-only entries in order. -/
theorem foldl_mergeSemantic_eq (sem : List (EvidenceItem × ℤ)) :
    ∀ m : List (String × ScoreEntry),
      List.Pairwise (fun p q : EvidenceItem × ℤ => p.1.id ≠ q.1.id) sem →
      List.Pairwise (fun e f : String × ScoreEntry => e.1 ≠ f.1) m →
      sem.foldl (fun m p => mergeSemantic m p.1 p.2) m
        = m.map (updEntry sem)
          ++ (sem.filter (fun p => ! m.any (fun e => e.1 = p.1.id))).map
               (fun p => (p.1.id, (⟨p.1, 0, p.2⟩ : ScoreEntry))) := by
  induction sem with
  | nil =>
    intro m _ _
    have h1 : m.map (updEntry []) = m := by
      have h0 : ∀ e ∈ m, updEntry [] e = id e := by
        intro e he
        unfold updEntry
        simp
      rw [List.map_congr_left h0, List.map_id]
    simp [h1]
  | cons p t ih =>
    intro m hpair hkeys
    obtain ⟨hhead, htail⟩ := List.pairwise_cons.1 hpair
    rw [List.foldl_cons]
    cases hfind : m.find? (fun e => e.1 = p.1.id) with
    | some e0 =>
        have hget : mapGet m p.1.id = some e0.2 := by
          unfold mapGet
          rw [hfind]
          rfl
        have he0mem : e0 ∈ m := List.mem_of_find?_eq_some hfind
        have he0key : e0.1 = p.1.id := by simpa using List.find?_some hfind
        have hany : m.any (fun e => e.1 = p.1.id) = true := by
          simp only [List.any_eq_true, decide_eq_true_eq]
          exact ⟨e0, he0mem, he0key⟩
        set v : ScoreEntry := { e0.2 with semanticScore := p.2 } with hv
        set g : String × ScoreEntry → String × ScoreEntry :=
          fun e => if e.1 = p.1.id then (p.1.id, v) else e with hgdef
        have haux : ∀ e : String × ScoreEntry, (g e).1 = e.1 := by
          intro e
          by_cases h : e.1 = p.1.id <;> simp [hgdef, h]
        have hset : mergeSemantic m p.1 p.2 = m.map g := by
          unfold mergeSemantic
          rw [hget]
          simp only []
          unfold mapSet
          rw [hany]
          simp only [if_pos]
        have hkeys2 : List.Pairwise (fun e f : String × ScoreEntry => e.1 ≠ f.1)
            (m.map g) := by
          rw [List.pairwise_map]
          exact hkeys.imp (fun h => by rw [haux, haux]; exact h)
        have hfn : t.find? (fun q => q.1.id = p.1.id) = none :=
          List.find?_eq_none.2 (fun q hq => by simpa using (hhead q hq).symm)
        rw [hset, ih (m.map g) htail hkeys2]
        have hA : (m.map g).map (updEntry t) = m.map (updEntry (p :: t)) := by
          rw [List.map_map]
          apply List.map_congr_left
          intro e he
          simp only [Function.comp_apply]
          by_cases hekey : e.1 = p.1.id
          · have he0eq : e = e0 := by
              by_contra hne
              exact List.Pairwise.forall (fun {x y} h => h.symm) hkeys
                he he0mem hne (by rw [hekey, he0key])
            have hge : g e = (p.1.id, v) := by simp [hgdef, hekey]
            rw [hge]
            unfold updEntry
            rw [hfn]
            have : (p :: t).find? (fun q => q.1.id = e.1) = some p :=
              List.find?_cons_of_pos _ (by simpa using hekey.symm)
            rw [this]
            simp only []
            rw [Prod.ext_iff]
            constructor
            · exact hekey.symm
            · rw [hv, ← he0eq]
          · have hge : g e = e := by simp [hgdef, hekey]
            rw [hge]
            unfold updEntry
            have : (p :: t).find? (fun q => q.1.id = e.1)
                = t.find? (fun q => q.1.id = e.1) :=
              List.find?_cons_of_neg _ (by simpa using fun h => hekey h.symm)
            rw [this]
        have hB : t.filter (fun q => ! (m.map g).any (fun e => e.1 = q.1.id))
            = t.filter (fun q => ! m.any (fun e => e.1 = q.1.id)) := by
          apply List.filter_congr
          intro q hq
          congr 1
          rw [List.any_map]
          congr 1
          funext e
          simp only [Function.comp_apply]
          rw [haux e]
        have hC : (p :: t).filter (fun q => ! m.any (fun e => e.1 = q.1.id))
            = t.filter (fun q => ! m.any (fun e => e.1 = q.1.id)) := by
          apply List.filter_cons_of_neg
          rw [hany]
          simp
        rw [hA, hB, hC]
    | none =>
        have hget : mapGet m p.1.id = none := by
          unfold mapGet
          rw [hfind]
          rfl
        have hnone : ∀ e ∈ m, e.1 ≠ p.1.id := by
          intro e he
          have := List.find?_eq_none.1 hfind e he
          simpa using this
        have hany : m.any (fun e => e.1 = p.1.id) = false := by
          simp only [List.any_eq_false, decide_eq_true_eq]
          exact hnone
        set v0 : ScoreEntry := ⟨p.1, 0, p.2⟩ with hv0
        have hset : mergeSemantic m p.1 p.2 = m ++ [(p.1.id, v0)] := by
          unfold mergeSemantic
          rw [hget]
          simp only []
          unfold mapSet
          rw [hany]
          simp only [Bool.false_eq_true, if_false]
        have hkeys2 : List.Pairwise (fun e f : String × ScoreEntry => e.1 ≠ f.1)
            (m ++ [(p.1.id, v0)]) := by
          rw [List.pairwise_append]
          refine ⟨hkeys, List.pairwise_singleton _ _, ?_⟩
          intro e he f hf
          have : f = (p.1.id, v0) := by simpa using hf
          rw [this]
          exact hnone e he
        have hfn : t.find? (fun q => q.1.id = p.1.id) = none :=
          List.find?_eq_none.2 (fun q hq => by simpa using (hhead q hq).symm)
        rw [hset, ih (m ++ [(p.1.id, v0)]) htail hkeys2]
        have hA : (m ++ [(p.1.id, v0)]).map (updEntry t)
            = m.map (updEntry (p :: t)) ++ [(p.1.id, v0)] := by
          rw [List.map_append]
          congr 1
          · apply List.map_congr_left
            intro e he
            unfold updEntry
            have : (p :: t).find? (fun q => q.1.id = e.1)
                = t.find? (fun q => q.1.id = e.1) :=
              List.find?_cons_of_neg _
                (by simpa using fun h => hnone e he h.symm)
            rw [this]
          · simp only [List.map_cons, List.map_nil]
            unfold updEntry
            rw [hfn]
        have hB : t.filter (fun q => ! (m ++ [(p.1.id, v0)]).any
              (fun e => e.1 = q.1.id))
            = t.filter (fun q => ! m.any (fun e => e.1 = q.1.id)) := by
          apply List.filter_congr
          intro q hq
          congr 1
          rw [List.any_append]
          have : [(p.1.id, v0)].any (fun e => e.1 = q.1.id) = false := by
            simp only [List.any_cons, List.any_nil, Bool.or_false]
            simpa using (hhead q hq)
          rw [this, Bool.or_false]
        have hC : (p :: t).filter (fun q => ! m.any (fun e => e.1 = q.1.id))
            = p :: t.filter (fun q => ! m.any (fun e => e.1 = q.1.id)) := by
          apply List.filter_cons_of_pos
          rw [hany]
          simp
        rw [hA, hB, hC]
        simp

/-! ## Spec-level score functions and the local hybrid combiner -/

theorem kwScoreSpec_eq_of_mem {query : String} {items : List EvidenceItem}
    {d : EvidenceItem} {s : ℤ} (h : (d, s) ∈ searchEvidence query items) :
    s = kwScoreSpec query d ∧ 0 < rawScore (toLowerStr query) d := by
  rw [mem_searchEvidence_iff] at h
  obtain ⟨hd, hpos, hs⟩ := h
  refine ⟨?_, hpos⟩
  unfold kwScoreSpec
  rw [if_pos hpos]
  exact hs

theorem kwScoreSpec_mem {query : String} {items : List EvidenceItem}
    {d : EvidenceItem} (hd : d ∈ items) (hne : kwScoreSpec query d ≠ 0) :
    (d, kwScoreSpec query d) ∈ searchEvidence query items := by
  by_cases hpos : 0 < rawScore (toLowerStr query) d
  · rw [mem_searchEvidence_iff]
    refine ⟨hd, hpos, ?_⟩
    unfold kwScoreSpec
    rw [if_pos hpos]
  · exfalso
    apply hne
    unfold kwScoreSpec
    rw [if_neg hpos]

theorem semScoreSpec_eq_of_mem {qe : List ℚ} {t : ℚ}
    {items : List EvidenceItem} {d : EvidenceItem} {s : ℤ}
    (h : (d, s) ∈ semanticSearch qe t items) : s = semScoreSpec qe t d := by
  rw [mem_semanticSearch_iff] at h
  obtain ⟨hd, emb, hemb, hne, hsim, hs⟩ := h
  unfold semScoreSpec
  rw [hemb]
  simp only []
  rw [if_neg hne, if_pos hsim]
  exact hs

theorem semScoreSpec_mem {qe : List ℚ} {t : ℚ} {items : List EvidenceItem}
    {d : EvidenceItem} (hd : d ∈ items) (hne : semScoreSpec qe t d ≠ 0) :
    (d, semScoreSpec qe t d) ∈ semanticSearch qe t items := by
  unfold semScoreSpec at *
  cases hx : d.embedding with
  | none => rw [hx] at hne; simp at hne
  | some emb =>
    rw [hx] at hne
    simp only [] at hne
    by_cases he : emb = []
    · rw [if_pos he] at hne; simp at hne
    · rw [if_neg he] at hne
      by_cases hsim : (t : ℝ) ≤ cosineSimilarity qe emb
      · rw [mem_semanticSearch_iff]
        rw [hx]
        simp only []
        rw [if_neg he, if_pos hsim]
        exact ⟨hd, emb, rfl, he, hsim, rfl⟩
      · rw [if_neg hsim] at hne; simp at hne

/-- Applying the semantic merge update to a keyword entry of a document
yields exactly the document's spec-level semantic score. -/
theorem updEntry_semRs {qe : List ℚ} {t : ℚ} {items : List EvidenceItem}
    {d : EvidenceItem} (hd : d ∈ items)
    (hinj : ∀ a ∈ items, ∀ b ∈ items, a.id = b.id → a = b) (k : ℤ) :
    updEntry (semanticSearch qe t items) (d.id, (⟨d, k, 0⟩ : ScoreEntry))
      = (d.id, (⟨d, k, semScoreSpec qe t d⟩ : ScoreEntry)) := by
  unfold updEntry
  cases hfs : (semanticSearch qe t items).find? (fun q => q.1.id = d.id) with
  | some q0 =>
    simp only []
    have hq0mem : q0 ∈ semanticSearch qe t items := List.mem_of_find?_eq_some hfs
    have hq0id : q0.1.id = d.id := by simpa using List.find?_some hfs
    have hq0items : q0.1 ∈ items := by
      have := (mem_semanticSearch_iff qe t items q0.1 q0.2).1 (by simpa using hq0mem)
      exact this.1
    have hq0d : q0.1 = d := hinj q0.1 hq0items d hd hq0id
    have hq0val : q0.2 = semScoreSpec qe t d := by
      have : (d, q0.2) ∈ semanticSearch qe t items := by
        rw [← hq0d]
        simpa using hq0mem
      exact semScoreSpec_eq_of_mem this
    rw [hq0val]
  | none =>
    simp only []
    have hspec : semScoreSpec qe t d = 0 := by
      by_contra hne
      have hmem := semScoreSpec_mem hd hne
      have := List.find?_eq_none.1 hfs (d, semScoreSpec qe t d) hmem
      simp at this
    rw [hspec]

/-- Membership characterization of the legacy local hybrid combiner with a
query embedding: a scored pair is emitted iff the document is in the
corpus, its score is the rounded weighted fusion of its keyword and
semantic contributions, and that score is positive. Requires pairwise
distinct document ids (the score map is keyed by `item.id`). -/
theorem mem_hybridSearch_iff (query : String) (qe : List ℚ)
    (kw sw : ℚ) (items : List EvidenceItem)
    (hnd : (items.map (fun i => i.id)).Nodup) (d : EvidenceItem) (s : ℤ) :
    (d, s) ∈ hybridSearch query (some qe) kw sw items ↔
      d ∈ items
        ∧ s = round ((kwScoreSpec query d : ℚ) * kw
            + (semScoreSpec qe (1 / 5) d : ℚ) * sw)
        ∧ 0 < s := by
  have hpairItems : List.Pairwise (fun a b : EvidenceItem => a.id ≠ b.id) items :=
    List.pairwise_map.1 hnd
  have hinj : ∀ a ∈ items, ∀ b ∈ items, a.id = b.id → a = b :=
    List.inj_on_of_nodup_map hnd
  have hkwPair := pairwise_ne_id_searchEvidence query hpairItems
  have hsemPair := pairwise_ne_id_semanticSearch qe (1 / 5) hpairItems
  have hm1 : (searchEvidence query items).foldl
      (fun m p => mapSet m p.1.id ⟨p.1, p.2, 0⟩) []
      = (searchEvidence query items).map
          (fun p => (p.1.id, (⟨p.1, p.2, 0⟩ : ScoreEntry))) := by
    rw [foldl_mapSet_eq _ [] (by simp) hkwPair]
    simp
  have hm1keys : List.Pairwise (fun e f : String × ScoreEntry => e.1 ≠ f.1)
      ((searchEvidence query items).map
        (fun p => (p.1.id, (⟨p.1, p.2, 0⟩ : ScoreEntry)))) := by
    rw [List.pairwise_map]
    exact hkwPair
  have hm2 := foldl_mergeSemantic_eq (semanticSearch qe (1 / 5) items) _
    hsemPair hm1keys
  have hpush := foldl_push_eq (combinedHit kw sw)
    (fun acc (e : String × ScoreEntry) =>
      let combinedScore : ℤ :=
        round ((e.2.keywordScore : ℚ) * kw + (e.2.semanticScore : ℚ) * sw)
      if 0 < combinedScore then acc ++ [(e.2.item, combinedScore)] else acc)
    (fun acc e => by
      by_cases hc : 0 < round ((e.2.keywordScore : ℚ) * kw
          + (e.2.semanticScore : ℚ) * sw) <;>
        simp [combinedHit, hc])
  unfold hybridSearch
  simp only []
  rw [hm1, hm2, hpush, List.nil_append, mem_sortByScoreDesc, List.mem_filterMap]
  constructor
  · rintro ⟨e, he, hhit⟩
    rcases List.mem_append.1 he with he | he
    · obtain ⟨x, hx, rfl⟩ := List.mem_map.1 he
      obtain ⟨p, hp, rfl⟩ := List.mem_map.1 hx
      have hpmem : (p.1, p.2) ∈ searchEvidence query items := by simpa using hp
      obtain ⟨hps, hpraw⟩ := kwScoreSpec_eq_of_mem hpmem
      have hpItems : p.1 ∈ items :=
        ((mem_searchEvidence_iff query items p.1 p.2).1 hpmem).1
      rw [updEntry_semRs hpItems hinj] at hhit
      unfold combinedHit at hhit
      simp only [] at hhit
      split at hhit
      · rw [Option.some_inj, Prod.ext_iff] at hhit
        obtain ⟨h1, h2⟩ := hhit
        simp only [] at h1 h2
        subst h1
        refine ⟨hpItems, ?_, ?_⟩
        · rw [← h2, hps]
        · rw [← h2]
          assumption
      · cases hhit
    · obtain ⟨p, hpfil, rfl⟩ := List.mem_map.1 he
      obtain ⟨hpsem, hcond⟩ := List.mem_filter.1 hpfil
      have hpmem : (p.1, p.2) ∈ semanticSearch qe (1 / 5) items := by
        simpa using hpsem
      have hpItems : p.1 ∈ items :=
        ((mem_semanticSearch_iff qe (1 / 5) items p.1 p.2).1 hpmem).1
      have hpval : p.2 = semScoreSpec qe (1 / 5) p.1 :=
        semScoreSpec_eq_of_mem hpmem
      have hkw0 : kwScoreSpec query p.1 = 0 := by
        by_contra hne
        have hmem := kwScoreSpec_mem hpItems hne
        have : ((searchEvidence query items).map
            (fun p => (p.1.id, (⟨p.1, p.2, 0⟩ : ScoreEntry)))).any
              (fun e => e.1 = p.1.id) = true := by
          rw [anyOverMap]
          simp only [List.any_eq_true, decide_eq_true_eq]
          exact ⟨(p.1, kwScoreSpec query p.1), hmem, rfl⟩
        rw [this] at hcond
        simp at hcond
      unfold combinedHit at hhit
      simp only [] at hhit
      split at hhit
      · rw [Option.some_inj, Prod.ext_iff] at hhit
        obtain ⟨h1, h2⟩ := hhit
        simp only [] at h1 h2
        subst h1
        refine ⟨hpItems, ?_, ?_⟩
        · rw [← h2, hkw0, ← hpval]
        · rw [← h2]
          assumption
      · cases hhit
  · rintro ⟨hd, hs, hpos⟩
    by_cases hraw : 0 < rawScore (toLowerStr query) d
    · have hkspec : kwScoreSpec query d
          = normalizeScore (rawScore (toLowerStr query) d) := by
        unfold kwScoreSpec
        rw [if_pos hraw]
      have hkmem : (d, kwScoreSpec query d) ∈ searchEvidence query items := by
        rw [mem_searchEvidence_iff]
        exact ⟨hd, hraw, hkspec⟩
      refine ⟨updEntry (semanticSearch qe (1 / 5) items)
        (d.id, (⟨d, kwScoreSpec query d, 0⟩ : ScoreEntry)), ?_, ?_⟩
      · apply List.mem_append_left
        apply List.mem_map.2
        refine ⟨(d.id, (⟨d, kwScoreSpec query d, 0⟩ : ScoreEntry)), ?_, rfl⟩
        apply List.mem_map.2
        exact ⟨(d, kwScoreSpec query d), hkmem, rfl⟩
      · rw [updEntry_semRs hd hinj]
        unfold combinedHit
        simp only []
        rw [← hs, if_pos hpos]
    · have hkw0 : kwScoreSpec query d = 0 := by
        unfold kwScoreSpec
        rw [if_neg hraw]
      have hsem : semScoreSpec qe (1 / 5) d ≠ 0 := by
        intro h0
        rw [hkw0, h0] at hs
        norm_num at hs
        rw [hs] at hpos
        exact lt_irrefl 0 hpos
      have hsmem := semScoreSpec_mem hd hsem
      refine ⟨(d.id, (⟨d, 0, semScoreSpec qe (1 / 5) d⟩ : ScoreEntry)), ?_, ?_⟩
      · apply List.mem_append_right
        apply List.mem_map.2
        refine ⟨(d, semScoreSpec qe (1 / 5) d), ?_, rfl⟩
        rw [List.mem_filter]
        refine ⟨hsmem, ?_⟩
        have hanyf : ((searchEvidence query items).map
            (fun p => (p.1.id, (⟨p.1, p.2, 0⟩ : ScoreEntry)))).any
              (fun e => e.1 = d.id) = false := by
          rw [anyOverMap]
          simp only [List.any_eq_false, decide_eq_true_eq]
          rintro ⟨a, k⟩ hak
          have hamem : (a, k) ∈ searchEvidence query items := hak
          have haItems : a ∈ items :=
            ((mem_searchEvidence_iff query items a k).1 hamem).1
          intro hid
          have : a = d := hinj a haItems d hd hid
          subst this
          exact hraw ((mem_searchEvidence_iff query items a k).1 hamem).2.1
        rw [hanyf]
        rfl
      · unfold combinedHit
        simp only []
        have hcomb : s = round (((0 : ℤ) : ℚ) * kw
            + ((semScoreSpec qe (1 / 5) d : ℤ) : ℚ) * sw) := by
          rw [hs, hkw0]
        rw [← hcomb, if_pos hpos]

/-! ## Score bounds of the local hybrid combiner -/

theorem mapSet_values (Q : ScoreEntry → Prop) {m : List (String × ScoreEntry)}
    {k : String} {v : ScoreEntry} (hm : ∀ e ∈ m, Q e.2) (hv : Q v) :
    ∀ e ∈ mapSet m k v, Q e.2 := by
  intro e he
  unfold mapSet at he
  split at he
  · obtain ⟨f, hf, rfl⟩ := List.mem_map.1 he
    split
    · exact hv
    · exact hm f hf
  · rcases List.mem_append.1 he with he | he
    · exact hm e he
    · have : e = (k, v) := by simpa using he
      rw [this]
      exact hv

theorem mapGet_value (Q : ScoreEntry → Prop) {m : List (String × ScoreEntry)}
    {k : String} {ex : ScoreEntry} (hm : ∀ e ∈ m, Q e.2)
    (h : mapGet m k = some ex) : Q ex := by
  unfold mapGet at h
  cases hfind : m.find? (fun e => e.1 = k) with
  | none => rw [hfind] at h; cases h
  | some e0 =>
    rw [hfind] at h
    have h2 : e0.2 = ex := by simpa using h
    rw [← h2]
    exact hm e0 (List.mem_of_find?_eq_some hfind)

theorem foldl_mapSet_values (Q : ScoreEntry → Prop)
    (rs : List (EvidenceItem × ℤ)) :
    ∀ m : List (String × ScoreEntry), (∀ e ∈ m, Q e.2) →
      (∀ p ∈ rs, Q ⟨p.1, p.2, 0⟩) →
      ∀ e ∈ rs.foldl (fun m p => mapSet m p.1.id ⟨p.1, p.2, 0⟩) m, Q e.2 := by
  induction rs with
  | nil => intro m hm _ e he; exact hm e he
  | cons p t ih =>
    intro m hm hrs e he
    rw [List.foldl_cons] at he
    exact ih (mapSet m p.1.id ⟨p.1, p.2, 0⟩)
      (mapSet_values Q hm (hrs p (List.mem_cons_self p t)))
      (fun q hq => hrs q (List.mem_cons_of_mem p hq)) e he

theorem foldl_mergeSemantic_values (Qk Qs : ℤ → Prop)
    (sem : List (EvidenceItem × ℤ)) (hQk0 : Qk 0) :
    ∀ m : List (String × ScoreEntry),
      (∀ e ∈ m, Qk e.2.keywordScore ∧ Qs e.2.semanticScore) →
      (∀ p ∈ sem, Qs p.2) →
      ∀ e ∈ sem.foldl (fun m p => mergeSemantic m p.1 p.2) m,
        Qk e.2.keywordScore ∧ Qs e.2.semanticScore := by
  induction sem with
  | nil => intro m hm _ e he; exact hm e he
  | cons p t ih =>
    intro m hm hsem e he
    rw [List.foldl_cons] at he
    have hstepv : ∀ f ∈ mergeSemantic m p.1 p.2,
        Qk f.2.keywordScore ∧ Qs f.2.semanticScore := by
      unfold mergeSemantic
      cases hget : mapGet m p.1.id with
      | some ex =>
        have hex := mapGet_value
          (fun v => Qk v.keywordScore ∧ Qs v.semanticScore) hm hget
        exact mapSet_values
          (fun v => Qk v.keywordScore ∧ Qs v.semanticScore) hm
          ⟨hex.1, hsem p (List.mem_cons_self p t)⟩
      | none =>
        exact mapSet_values
          (fun v => Qk v.keywordScore ∧ Qs v.semanticScore) hm
          ⟨hQk0, hsem p (List.mem_cons_self p t)⟩
    exact ih (mergeSemantic m p.1 p.2) hstepv
      (fun q hq => hsem q (List.mem_cons_of_mem p hq)) e he

/-- Bounds for the fused pipeline over arbitrary keyword and semantic
result lists with scores in `[0, 100]`. -/
theorem hybrid_pipeline_bounds (kwRs semRs : List (EvidenceItem × ℤ))
    (kw sw : ℚ) (hkwB : ∀ q ∈ kwRs, 0 ≤ q.2 ∧ q.2 ≤ 100)
    (hsemB : ∀ q ∈ semRs, 0 ≤ q.2 ∧ q.2 ≤ 100)
    (hkw : 0 ≤ kw) (hsw : 0 ≤ sw) (hsum : kw + sw ≤ 1) :
    ∀ p ∈ sortByScoreDesc
      ((semRs.foldl (fun m p => mergeSemantic m p.1 p.2)
          (kwRs.foldl (fun m p => mapSet m p.1.id ⟨p.1, p.2, 0⟩) [])).foldl
        (fun acc (e : String × ScoreEntry) =>
          let combinedScore : ℤ :=
            round ((e.2.keywordScore : ℚ) * kw + (e.2.semanticScore : ℚ) * sw)
          if 0 < combinedScore then acc ++ [(e.2.item, combinedScore)] else acc)
        []),
      0 < p.2 ∧ p.2 ≤ 100 := by
  intro p hp
  rw [mem_sortByScoreDesc] at hp
  have hpush := foldl_push_eq (combinedHit kw sw)
    (fun acc (e : String × ScoreEntry) =>
      let combinedScore : ℤ :=
        round ((e.2.keywordScore : ℚ) * kw + (e.2.semanticScore : ℚ) * sw)
      if 0 < combinedScore then acc ++ [(e.2.item, combinedScore)] else acc)
    (fun acc e => by
      by_cases hc : 0 < round ((e.2.keywordScore : ℚ) * kw
          + (e.2.semanticScore : ℚ) * sw) <;>
        simp [combinedHit, hc])
  rw [hpush, List.nil_append, List.mem_filterMap] at hp
  obtain ⟨e, he, hhit⟩ := hp
  have hm1v := foldl_mapSet_values
    (fun v : ScoreEntry => (0 ≤ v.keywordScore ∧ v.keywordScore ≤ 100)
      ∧ (0 ≤ v.semanticScore ∧ v.semanticScore ≤ 100))
    kwRs []
    (by intro f hf; cases hf)
    (by intro q hq; exact ⟨hkwB q hq, by norm_num⟩)
  have hm2v := foldl_mergeSemantic_values
    (fun k => 0 ≤ k ∧ k ≤ 100) (fun s => 0 ≤ s ∧ s ≤ 100)
    semRs (by norm_num) _ hm1v hsemB
  have hev := hm2v e he
  unfold combinedHit at hhit
  simp only [] at hhit
  split at hhit
  · rw [Option.some_inj] at hhit
    rw [← hhit]
    constructor
    · assumption
    · obtain ⟨⟨hk0, hk100⟩, ⟨hs0, hs100⟩⟩ := hev
      have hle : (e.2.keywordScore : ℚ) * kw + (e.2.semanticScore : ℚ) * sw
          ≤ 100 := by
        have h1 : (e.2.keywordScore : ℚ) ≤ 100 := by exact_mod_cast hk100
        have h2 : (e.2.semanticScore : ℚ) ≤ 100 := by exact_mod_cast hs100
        nlinarith
      calc round ((e.2.keywordScore : ℚ) * kw + (e.2.semanticScore : ℚ) * sw)
          ≤ round ((100 : ℚ)) := round_le_of_le hle
        _ = 100 := round_hundred
  · cases hhit

/-- Combined scores of the legacy combiner are positive and at most 100
whenever the weights are nonnegative and sum to at most 1. -/
theorem hybridSearch_bounds (query : String) (qe : Option (List ℚ))
    (kw sw : ℚ) (items : List EvidenceItem)
    (hkw : 0 ≤ kw) (hsw : 0 ≤ sw) (hsum : kw + sw ≤ 1) :
    ∀ p ∈ hybridSearch query qe kw sw items, 0 < p.2 ∧ p.2 ≤ 100 := by
  have hkwB : ∀ q ∈ searchEvidence query items, 0 ≤ q.2 ∧ q.2 ≤ 100 := by
    intro q hq
    obtain ⟨h9, h100⟩ := searchEvidence_score_bounds query items q hq
    exact ⟨by omega, h100⟩
  cases qe with
  | none =>
    unfold hybridSearch
    simp only []
    exact hybrid_pipeline_bounds (searchEvidence query items) []
      kw sw hkwB (by intro q hq; cases hq) hkw hsw hsum
  | some qv =>
    unfold hybridSearch
    simp only []
    exact hybrid_pipeline_bounds (searchEvidence query items)
      (semanticSearch qv (1 / 5) items) kw sw hkwB
      (semanticSearch_score_bounds qv (1 / 5) (by norm_num) items)
      hkw hsw hsum

/-- The legacy combiner always returns a list sorted by score
descending. -/
theorem hybridSearch_sorted (query : String) (qe : Option (List ℚ))
    (kw sw : ℚ) (items : List EvidenceItem) :
    List.Sorted scoreGE (hybridSearch query qe kw sw items) := by
  unfold hybridSearch
  simp only []
  exact sorted_sortByScoreDesc _

/-- With no query embedding, the legacy combiner is exactly the keyword
result list with each score weighted by `keywordWeight` and rounded,
entries whose weighted score is not positive dropped, and the relative
order of the keyword ranking preserved. -/
theorem hybridSearch_none_eq (query : String) (kw sw : ℚ)
    (items : List EvidenceItem)
    (hnd : (items.map (fun i => i.id)).Nodup) :
    hybridSearch query none kw sw items
      = (searchEvidence query items).filterMap
          (fun p => if 0 < round ((p.2 : ℚ) * kw)
            then some (p.1, round ((p.2 : ℚ) * kw)) else none) := by
  have hpairItems : List.Pairwise (fun a b : EvidenceItem => a.id ≠ b.id) items :=
    List.pairwise_map.1 hnd
  have hkwPair := pairwise_ne_id_searchEvidence query hpairItems
  have hm1 : (searchEvidence query items).foldl
      (fun m p => mapSet m p.1.id ⟨p.1, p.2, 0⟩) []
      = (searchEvidence query items).map
          (fun p => (p.1.id, (⟨p.1, p.2, 0⟩ : ScoreEntry))) := by
    rw [foldl_mapSet_eq _ [] (by simp) hkwPair]
    simp
  have hpush := foldl_push_eq (combinedHit kw sw)
    (fun acc (e : String × ScoreEntry) =>
      let combinedScore : ℤ :=
        round ((e.2.keywordScore : ℚ) * kw + (e.2.semanticScore : ℚ) * sw)
      if 0 < combinedScore then acc ++ [(e.2.item, combinedScore)] else acc)
    (fun acc e => by
      by_cases hc : 0 < round ((e.2.keywordScore : ℚ) * kw
          + (e.2.semanticScore : ℚ) * sw) <;>
        simp [combinedHit, hc])
  unfold hybridSearch
  simp only [List.foldl_nil]
  rw [hm1, hpush, List.nil_append, List.filterMap_map]
  have hfun : ∀ p ∈ searchEvidence query items,
      (combinedHit kw sw ∘ (fun p => (p.1.id, (⟨p.1, p.2, 0⟩ : ScoreEntry)))) p
        = if 0 < round ((p.2 : ℚ) * kw)
            then some (p.1, round ((p.2 : ℚ) * kw)) else none := by
    intro p hp
    simp only [Function.comp_apply, combinedHit, Int.cast_zero, zero_mul,
      add_zero]
  rw [List.filterMap_congr hfun]
  apply sortByScoreDesc_of_sorted
  have hsorted : List.Sorted scoreGE (searchEvidence query items) := by
    rw [searchEvidence_eq]
    exact sorted_sortByScoreDesc _
  by_cases hkw : 0 ≤ kw
  · apply List.Pairwise.filterMap _ ?_ hsorted
    intro p q hpq b hb b' hb'
    rw [Option.mem_def] at hb hb'
    by_cases hp1 : 0 < round ((p.2 : ℚ) * kw)
    · rw [if_pos hp1, Option.some_inj] at hb
      by_cases hq1 : 0 < round ((q.2 : ℚ) * kw)
      · rw [if_pos hq1, Option.some_inj] at hb'
        rw [← hb, ← hb']
        show round ((q.2 : ℚ) * kw) ≤ round ((p.2 : ℚ) * kw)
        apply round_le_of_le
        have hle : (q.2 : ℚ) ≤ (p.2 : ℚ) := by exact_mod_cast hpq
        nlinarith
      · rw [if_neg hq1] at hb'
        cases hb'
    · rw [if_neg hp1] at hb
      cases hb
  · push_neg at hkw
    have hempty : (searchEvidence query items).filterMap
        (fun p => if 0 < round ((p.2 : ℚ) * kw)
          then some (p.1, round ((p.2 : ℚ) * kw)) else none) = [] := by
      rw [List.filterMap_eq_nil_iff]
      intro p hp
      have h9 : 9 ≤ p.2 := (searchEvidence_score_bounds query items p hp).1
      have hneg : (p.2 : ℚ) * kw ≤ 0 := by
        have : (9 : ℚ) ≤ (p.2 : ℚ) := by exact_mod_cast h9
        nlinarith
      have : round ((p.2 : ℚ) * kw) ≤ 0 := by
        calc round ((p.2 : ℚ) * kw) ≤ round ((0 : ℚ)) := round_le_of_le hneg
          _ = 0 := by norm_num
      rw [if_neg (by omega)]
    rw [hempty]
    exact List.sorted_nil

end Legacy

/-! ## The vault-backed remote combiner -/

namespace Vault

/-- The vault combiner is the descending sort of the per-result
processing, in remote-result order. -/
theorem hybridSearch_eq (results : List VaultSearchResult)
    (allMetadata : List EvidenceMetadata) (filters : SearchFilters) :
    hybridSearch results allMetadata filters
      = sortByScoreDesc
          (results.filterMap (processVaultResult allMetadata filters)) := by
  unfold hybridSearch
  simp only []
  congr 1
  refine (foldl_push_eq (processVaultResult allMetadata filters) _ ?_
    results []).trans (List.nil_append _)
  intro acc x
  cases hx : processVaultResult allMetadata filters x <;> simp [hx]

/-- On empty remote results the combiner returns the empty list — it never
falls back to any local scorer. -/
theorem hybridSearch_nil (allMetadata : List EvidenceMetadata)
    (filters : SearchFilters) :
    hybridSearch [] allMetadata filters = [] := by
  rw [hybridSearch_eq]
  rfl

/-- Processing of an orphaned remote result (no matching local metadata):
kept with the synthetic item exactly when no tag filter is active and the
category filter, if active, contains `other`. -/
theorem processVaultResult_orphan (allMetadata : List EvidenceMetadata)
    (filters : SearchFilters) (r : VaultSearchResult)
    (hno : ∀ m ∈ allMetadata, m.vaultDocRef.objectId ≠ r.objectId) :
    processVaultResult allMetadata filters r
      = if filters.categories ≠ [] ∧
            EvidenceCategory.other ∉ filters.categories then none
        else if filters.tags ≠ [] then none
        else some (mkTempItem r, round (r.score * 100)) := by
  unfold processVaultResult
  rw [List.find?_eq_none.2 (fun m hm => by simpa using hno m hm)]

/-- Every score emitted by the vault combiner is the rounded percentage of
its remote score. -/
theorem processVaultResult_score (allMetadata : List EvidenceMetadata)
    (filters : SearchFilters) (r : VaultSearchResult) (p : EvidenceItem × ℤ)
    (h : processVaultResult allMetadata filters r = some p) :
    p.2 = round (r.score * 100) := by
  unfold processVaultResult at h
  cases hf : allMetadata.find? (fun m => m.vaultDocRef.objectId = r.objectId) with
  | some md =>
    rw [hf] at h
    simp only [] at h
    split at h
    · cases h
    · split at h
      · cases h
      · rw [Option.some_inj] at h
        rw [← h]
  | none =>
    rw [hf] at h
    simp only [] at h
    split at h
    · cases h
    · split at h
      · cases h
      · rw [Option.some_inj] at h
        rw [← h]

/-- With remote scores in `[0, 1]`, every emitted score is in
`[0, 100]`. -/
theorem vault_hybridSearch_bounds (results : List VaultSearchResult)
    (allMetadata : List EvidenceMetadata) (filters : SearchFilters)
    (hsc : ∀ r ∈ results, 0 ≤ r.score ∧ r.score ≤ 1) :
    ∀ p ∈ hybridSearch results allMetadata filters,
      0 ≤ p.2 ∧ p.2 ≤ 100 := by
  intro p hp
  rw [hybridSearch_eq, mem_sortByScoreDesc, List.mem_filterMap] at hp
  obtain ⟨r, hr, hhit⟩ := hp
  rw [processVaultResult_score allMetadata filters r p hhit]
  obtain ⟨h0, h1⟩ := hsc r hr
  constructor
  · have : (0 : ℚ) ≤ r.score * 100 := by nlinarith
    have := round_le_of_le this
    simpa using this
  · have : r.score * 100 ≤ 100 := by nlinarith
    calc round (r.score * 100) ≤ round ((100 : ℚ)) := round_le_of_le this
      _ = 100 := round_hundred

/-- The vault combiner's output is sorted by score descending. -/
theorem vault_hybridSearch_sorted (results : List VaultSearchResult)
    (allMetadata : List EvidenceMetadata) (filters : SearchFilters) :
    List.Sorted scoreGE (hybridSearch results allMetadata filters) := by
  rw [hybridSearch_eq]
  exact sorted_sortByScoreDesc _

/-- `searchVault` returns the empty list on every failure path. -/
theorem searchVault_failure (apiKey vaultId : Option String) :
    searchVault apiKey vaultId .netError = []
    ∧ searchVault apiKey vaultId .httpError = []
    ∧ searchVault apiKey vaultId (.ok none) = [] := by
  cases apiKey <;> cases vaultId <;> exact ⟨rfl, rfl, rfl⟩

end Vault

/-! ## Concrete evaluations and the top-level specification theorems -/

/-- A raw keyword score of 50 normalizes to 45. -/
theorem normalizeScore_50 : Legacy.normalizeScore 50 = 45 := by
  norm_num [Legacy.normalizeScore, Legacy.MAX_RAW_SCORE, round_eq]

/-- A raw keyword score of 10 normalizes to 9. -/
theorem normalizeScore_10 : Legacy.normalizeScore 10 = 9 := by
  norm_num [Legacy.normalizeScore, Legacy.MAX_RAW_SCORE, round_eq]

/-- A raw keyword score of 110 normalizes to 100. -/
theorem normalizeScore_110 : Legacy.normalizeScore 110 = 100 := by
  norm_num [Legacy.normalizeScore, Legacy.MAX_RAW_SCORE, round_eq]

/-- Concrete keyword run: the all-fields document scores 100. -/
theorem searchEvidence_allFields :
    Legacy.searchEvidence "a" [allFieldsItem] = [(allFieldsItem, 100)] := by
  simp [Legacy.searchEvidence, sortByScoreDesc, List.insertionSort,
    show Legacy.rawScore (toLowerStr "a") allFieldsItem = 110 from by decide,
    normalizeScore_110]

/-- Concrete keyword run on the two lease documents: the filename match
leads with 45, the text-only match follows with 9. -/
theorem searchEvidence_lease :
    Legacy.searchEvidence "lease" [leaseTextItem, leaseNameItem]
      = [(leaseNameItem, 45), (leaseTextItem, 9)] := by
  simp [Legacy.searchEvidence, sortByScoreDesc, List.insertionSort,
    List.orderedInsert, scoreGE,
    show Legacy.rawScore (toLowerStr "lease") leaseTextItem = 10 from by decide,
    show Legacy.rawScore (toLowerStr "lease") leaseNameItem = 50 from by decide,
    normalizeScore_10, normalizeScore_50]

/-- The fixture embedding has similarity exactly `7/25 = 0.28` with the
query embedding `[1, 0]`. -/
theorem cosine_midSim :
    Legacy.cosineSimilarity [1, 0] [7, 24] = 7 / 25 := by
  rw [Legacy.cosineSimilarity_eq]
  have hs1 : sumSq [1, 0] = 1 := by norm_num [sumSq]
  have hs2 : sumSq [7, 24] = 625 := by norm_num [sumSq]
  rw [hs1, hs2]
  rw [if_neg (by norm_num), if_neg (by norm_num)]
  have hz : (List.zipWith (fun x y => x * y) [(1 : ℚ), 0] [7, 24]).sum = 7 := by
    norm_num
  rw [hz]
  have h1 : Real.sqrt ((1 : ℚ) : ℝ) = 1 := by
    push_cast
    exact Real.sqrt_one
  have h625 : Real.sqrt ((625 : ℚ) : ℝ) = 25 := by
    push_cast
    rw [show (625 : ℝ) = 25 ^ 2 by norm_num]
    exact Real.sqrt_sq (by norm_num)
  rw [h1, h625]
  norm_num

/-- Counterexample to C1 as stated: with caller-supplied weights
`keywordWeight = 2`, a document matching all four keyword fields is
emitted by the local hybrid combiner with score 200, outside `[0, 100]`. -/
theorem hybrid_score_exceeds_100 :
    Legacy.hybridSearch "a" none 2 (7 / 10) [allFieldsItem]
      = [(allFieldsItem, 200)] := by
  rw [Legacy.hybridSearch_none_eq "a" 2 (7 / 10) [allFieldsItem] (by decide)]
  rw [searchEvidence_allFields]
  have h200 : round ((100 : ℚ) * 2) = 200 := by norm_num [round_eq]
  simp [List.filterMap_cons, h200]

/-- C1 (amended): every score emitted by the keyword ranker, the local
hybrid combiner, and the remote-assisted combiner is an integer in
`[0, 100]`, and every returned list is sorted by score descending —
provided the caller-supplied weights are nonnegative and sum to at most 1
(as the defaults 0.3/0.7 do), and remote raw scores lie in `[0, 1]`. -/
theorem rankers_bounded_sorted :
    (∀ (query : String) (items : List EvidenceItem),
        (∀ p ∈ Legacy.searchEvidence query items, 0 ≤ p.2 ∧ p.2 ≤ 100)
        ∧ List.Sorted scoreGE (Legacy.searchEvidence query items))
    ∧ (∀ (query : String) (qe : Option (List ℚ)) (kw sw : ℚ)
        (items : List EvidenceItem), 0 ≤ kw → 0 ≤ sw → kw + sw ≤ 1 →
        (∀ p ∈ Legacy.hybridSearch query qe kw sw items, 0 ≤ p.2 ∧ p.2 ≤ 100)
        ∧ List.Sorted scoreGE (Legacy.hybridSearch query qe kw sw items))
    ∧ (∀ (results : List VaultSearchResult) (meta : List EvidenceMetadata)
        (filters : SearchFilters),
        (∀ r ∈ results, 0 ≤ r.score ∧ r.score ≤ 1) →
        (∀ p ∈ Vault.hybridSearch results meta filters, 0 ≤ p.2 ∧ p.2 ≤ 100)
        ∧ List.Sorted scoreGE (Vault.hybridSearch results meta filters)) := by
  refine ⟨?_, ?_, ?_⟩
  · intro query items
    constructor
    · intro p hp
      obtain ⟨h9, h100⟩ := Legacy.searchEvidence_score_bounds query items p hp
      exact ⟨by omega, h100⟩
    · rw [Legacy.searchEvidence_eq]
      exact sorted_sortByScoreDesc _
  · intro query qe kw sw items hkw hsw hsum
    constructor
    · intro p hp
      obtain ⟨hpos, h100⟩ :=
        Legacy.hybridSearch_bounds query qe kw sw items hkw hsw hsum p hp
      exact ⟨by omega, h100⟩
    · exact Legacy.hybridSearch_sorted query qe kw sw items
  · intro results meta filters hsc
    exact ⟨Vault.vault_hybridSearch_bounds results meta filters hsc,
      Vault.vault_hybridSearch_sorted results meta filters⟩

/-- Witness for the amended C1 at the default weights and a concrete
corpus and remote result list. -/
theorem rankers_bounded_sorted_witness :
    ((0 : ℚ) ≤ 3 / 10 ∧ (0 : ℚ) ≤ 7 / 10 ∧ (3 / 10 : ℚ) + 7 / 10 ≤ 1
      ∧ (∀ r ∈ [orphanResult], 0 ≤ r.score ∧ r.score ≤ 1))
    ∧ ((∀ p ∈ Legacy.hybridSearch "a" none (3 / 10) (7 / 10) [allFieldsItem],
          0 ≤ p.2 ∧ p.2 ≤ 100)
        ∧ List.Sorted scoreGE
            (Legacy.hybridSearch "a" none (3 / 10) (7 / 10) [allFieldsItem]))
    ∧ ((∀ p ∈ Vault.hybridSearch [orphanResult] [] ⟨[], []⟩,
          0 ≤ p.2 ∧ p.2 ≤ 100)
        ∧ List.Sorted scoreGE (Vault.hybridSearch [orphanResult] [] ⟨[], []⟩)) := by
  have hrem : ∀ r ∈ [orphanResult], 0 ≤ r.score ∧ r.score ≤ 1 := by
    intro r hr
    have hr2 : r = orphanResult := by simpa using hr
    rw [hr2]
    unfold orphanResult
    norm_num
  refine ⟨⟨by norm_num, by norm_num, by norm_num, hrem⟩, ?_, ?_⟩
  · exact rankers_bounded_sorted.2.1 "a" none (3 / 10) (7 / 10) [allFieldsItem]
      (by norm_num) (by norm_num) (by norm_num)
  · exact rankers_bounded_sorted.2.2 [orphanResult] [] ⟨[], []⟩ hrem

/-- C2: for every corpus with distinct document ids, query and query
embedding, the local hybrid combiner emits a document iff its combined
score `round(keywordScore * keywordWeight + semanticScore *
semanticWeight)` is positive (zero combined scores are excluded), with
the defaults 0.3/0.7; a document with keyword score 100 and semantic
score 0 combines to 30, and one with keyword 0 and semantic 100 to 70. -/
theorem local_combiner_fusion_spec :
    (∀ (query : String) (qe : List ℚ) (kw sw : ℚ)
        (items : List EvidenceItem),
        (items.map (fun i => i.id)).Nodup →
        ∀ (d : EvidenceItem) (s : ℤ),
          ((d, s) ∈ Legacy.hybridSearch query (some qe) kw sw items ↔
            d ∈ items
              ∧ s = round ((Legacy.kwScoreSpec query d : ℚ) * kw
                  + (Legacy.semScoreSpec qe (1 / 5) d : ℚ) * sw)
              ∧ 0 < s))
    ∧ Legacy.defaultKeywordWeight = 3 / 10
    ∧ Legacy.defaultSemanticWeight = 7 / 10
    ∧ round ((100 : ℚ) * (3 / 10) + 0 * (7 / 10)) = 30
    ∧ round ((0 : ℚ) * (3 / 10) + 100 * (7 / 10)) = 70
    ∧ (∀ (query : String) (qe : List ℚ) (kw sw : ℚ)
        (items : List EvidenceItem),
        List.Sorted scoreGE (Legacy.hybridSearch query (some qe) kw sw items)) := by
  refine ⟨?_, rfl, rfl, by norm_num [round_eq], by norm_num [round_eq], ?_⟩
  · intro query qe kw sw items hnd d s
    exact Legacy.mem_hybridSearch_iff query qe kw sw items hnd d s
  · intro query qe kw sw items
    exact Legacy.hybridSearch_sorted query (some qe) kw sw items

/-- Witness for C2 on a one-document corpus. -/
theorem local_combiner_fusion_spec_witness :
    (([filenameItem].map (fun i => i.id)).Nodup)
    ∧ (∀ (d : EvidenceItem) (s : ℤ),
        ((d, s) ∈ Legacy.hybridSearch "match" (some [1, 0]) (3 / 10) (7 / 10)
            [filenameItem] ↔
          d ∈ [filenameItem]
            ∧ s = round ((Legacy.kwScoreSpec "match" d : ℚ) * (3 / 10)
                + (Legacy.semScoreSpec [1, 0] (1 / 5) d : ℚ) * (7 / 10))
            ∧ 0 < s)) :=
  ⟨by decide,
    local_combiner_fusion_spec.1 "match" [1, 0] (3 / 10) (7 / 10) [filenameItem] (by decide)⟩

/-- C3: a remote result with no matching local metadata is still emitted
as a synthetic item with category `other`, empty tags and
`needsSync = true`, scored `round(remoteScore * 100)`; with an active
category filter it is kept iff `other` is in the filter, and any active
tag filter always drops it. -/
theorem remote_orphan_spec :
    ∀ (results : List VaultSearchResult) (meta : List EvidenceMetadata)
      (cats : List EvidenceCategory) (tags : List String)
      (r : VaultSearchResult),
      r ∈ results →
      (∀ m ∈ meta, m.vaultDocRef.objectId ≠ r.objectId) →
      ((Vault.mkTempItem r).category = EvidenceCategory.other
        ∧ (Vault.mkTempItem r).tags = []
        ∧ (Vault.mkTempItem r).needsSync = some true)
      ∧ (tags = [] → (cats = [] ∨ EvidenceCategory.other ∈ cats) →
          (Vault.mkTempItem r, round (r.score * 100))
            ∈ Vault.hybridSearch results meta ⟨cats, tags⟩)
      ∧ (cats ≠ [] → EvidenceCategory.other ∉ cats →
          Vault.processVaultResult meta ⟨cats, tags⟩ r = none)
      ∧ (tags ≠ [] → Vault.processVaultResult meta ⟨cats, tags⟩ r = none) := by
  intro results meta cats tags r hr hno
  have horphan := Vault.processVaultResult_orphan meta ⟨cats, tags⟩ r hno
  refine ⟨⟨rfl, rfl, rfl⟩, ?_, ?_, ?_⟩
  · intro htags hcats
    rw [Vault.hybridSearch_eq, mem_sortByScoreDesc, List.mem_filterMap]
    refine ⟨r, hr, ?_⟩
    rw [horphan]
    rw [if_neg (by
      rintro ⟨h1, h2⟩
      rcases hcats with h | h
      · exact h1 h
      · exact h2 h)]
    rw [if_neg (by simpa using htags)]
  · intro hcats hother
    rw [horphan, if_pos ⟨hcats, hother⟩]
  · intro htags
    rw [horphan]
    by_cases hcat : cats ≠ [] ∧ EvidenceCategory.other ∉ cats
    · rw [if_pos hcat]
    · rw [if_neg hcat, if_pos htags]

/-- Witness for C3 with a concrete orphaned remote result and the filter
`categories = [other]`. -/
theorem remote_orphan_spec_witness :
    (orphanResult ∈ [orphanResult]
      ∧ (∀ m ∈ ([] : List EvidenceMetadata),
          m.vaultDocRef.objectId ≠ orphanResult.objectId))
    ∧ (((Vault.mkTempItem orphanResult).category = EvidenceCategory.other
        ∧ (Vault.mkTempItem orphanResult).tags = []
        ∧ (Vault.mkTempItem orphanResult).needsSync = some true)
      ∧ (([] : List String) = [] →
          (([EvidenceCategory.other] : List EvidenceCategory) = []
            ∨ EvidenceCategory.other ∈ [EvidenceCategory.other]) →
          (Vault.mkTempItem orphanResult, round (orphanResult.score * 100))
            ∈ Vault.hybridSearch [orphanResult] []
                ⟨[EvidenceCategory.other], []⟩)
      ∧ ([EvidenceCategory.other] ≠ ([] : List EvidenceCategory) →
          EvidenceCategory.other ∉ [EvidenceCategory.other] →
          Vault.processVaultResult [] ⟨[EvidenceCategory.other], []⟩
            orphanResult = none)
      ∧ (([] : List String) ≠ [] →
          Vault.processVaultResult [] ⟨[EvidenceCategory.other], []⟩
            orphanResult = none)) :=
  ⟨⟨by simp, by simp⟩,
    remote_orphan_spec [orphanResult] [] [EvidenceCategory.other] [] orphanResult
      (by simp) (by simp)⟩

/-- C4: the keyword scorer emits a document iff its raw score — the sum
of at most one application of each field weight (+50 filename, +30
summary, +20 tag, +10 extracted text, case-insensitive containment) — is
positive, with normalized score `round(rawScore / 110 * 100)`; a
filename-only match yields 45 and an all-fields match yields 100. -/
theorem keyword_scorer_spec :
    (∀ (query : String) (items : List EvidenceItem)
        (d : EvidenceItem) (s : ℤ),
        ((d, s) ∈ Legacy.searchEvidence query items ↔
          d ∈ items ∧ 0 < Legacy.rawScore (toLowerStr query) d
            ∧ s = round ((Legacy.rawScore (toLowerStr query) d : ℚ)
                / 110 * 100)))
    ∧ round ((50 : ℚ) / 110 * 100) = 45
    ∧ round ((110 : ℚ) / 110 * 100) = 100 := by
  refine ⟨?_, by norm_num [round_eq], by norm_num [round_eq]⟩
  intro query items d s
  have h := Legacy.mem_searchEvidence_iff query items d s
  simpa [Legacy.normalizeScore, Legacy.MAX_RAW_SCORE] using h

/-- C5: the semantic scorer silently skips documents with absent or empty
embeddings, includes a document iff its raw cosine similarity reaches the
threshold (inclusive, compared on the raw similarity), scores it
`round(similarity * 100)`, and the threshold defaults to 0.3. -/
theorem semantic_scorer_spec :
    (∀ (qe : List ℚ) (t : ℚ) (items : List EvidenceItem)
        (d : EvidenceItem) (s : ℤ),
        ((d, s) ∈ Legacy.semanticSearch qe t items ↔
          d ∈ items ∧ ∃ emb, d.embedding = some emb ∧ emb ≠ []
            ∧ (t : ℝ) ≤ Legacy.cosineSimilarity qe emb
            ∧ s = round (Legacy.cosineSimilarity qe emb * 100)))
    ∧ Legacy.defaultMinScore = 3 / 10 := by
  exact ⟨Legacy.mem_semanticSearch_iff, rfl⟩

/-- C6: the cosine similarity primitive is a total function returning 0
on mismatched lengths, 0 when either vector has zero magnitude (zero sum
of squares), and the dot product over the product of magnitudes
otherwise. -/
theorem cosine_similarity_spec :
    ∀ a b : List ℚ,
      Legacy.cosineSimilarity a b =
        if a.length ≠ b.length then 0
        else if sumSq a = 0 ∨ sumSq b = 0 then 0
        else (((List.zipWith (fun x y => x * y) a b).sum : ℚ) : ℝ)
          / (Real.sqrt ((sumSq a : ℚ) : ℝ) * Real.sqrt ((sumSq b : ℚ) : ℝ)) :=
  Legacy.cosineSimilarity_eq

/-- C7: with no query embedding, the local hybrid combiner returns
exactly the keyword scorer result with each score replaced by
`round(keywordScore * keywordWeight)`, dropping non-positive weighted
scores, in the same relative ranking (for corpora with distinct ids). -/
theorem no_embedding_keyword_equivalence :
    ∀ (query : String) (kw sw : ℚ) (items : List EvidenceItem),
      (items.map (fun i => i.id)).Nodup →
      Legacy.hybridSearch query none kw sw items
        = (Legacy.searchEvidence query items).filterMap
            (fun p => if 0 < round ((p.2 : ℚ) * kw)
              then some (p.1, round ((p.2 : ℚ) * kw)) else none) := by
  intro query kw sw items hnd
  exact Legacy.hybridSearch_none_eq query kw sw items hnd

/-- Witness for C7 on a two-document corpus with weight 1/2. -/
theorem no_embedding_keyword_equivalence_witness :
    (([leaseTextItem, leaseNameItem].map (fun i => i.id)).Nodup)
    ∧ Legacy.hybridSearch "lease" none (1 / 2) (1 / 2)
          [leaseTextItem, leaseNameItem]
        = (Legacy.searchEvidence "lease" [leaseTextItem, leaseNameItem]).filterMap
            (fun p => if 0 < round ((p.2 : ℚ) * (1 / 2))
              then some (p.1, round ((p.2 : ℚ) * (1 / 2))) else none) :=
  ⟨by decide,
    no_embedding_keyword_equivalence "lease" (1 / 2) (1 / 2) [leaseTextItem, leaseNameItem] (by decide)⟩

/-- C8: when the remote call fails (network error, non-2xx, missing
results) or returns zero results, the remote-assisted search path returns
the empty list — never an exception — and the combiner performs no
fallback to the local keyword scorer. -/
theorem remote_failure_yields_empty :
    (∀ (apiKey vaultId : Option String),
        Vault.searchVault apiKey vaultId .netError = []
        ∧ Vault.searchVault apiKey vaultId .httpError = []
        ∧ Vault.searchVault apiKey vaultId (.ok none) = [])
    ∧ (∀ (meta : List EvidenceMetadata) (filters : SearchFilters),
        Vault.hybridSearch [] meta filters = [])
    ∧ (∀ (apiKey vaultId : Option String) (meta : List EvidenceMetadata)
        (filters : SearchFilters),
        Vault.hybridSearch (Vault.searchVault apiKey vaultId .netError)
          meta filters = []) := by
  refine ⟨Vault.searchVault_failure, Vault.hybridSearch_nil, ?_⟩
  intro apiKey vaultId meta filters
  rw [(Vault.searchVault_failure apiKey vaultId).1]
  exact Vault.hybridSearch_nil meta filters

/-- Counterexample to C9 as stated: the keyword scorer already sorts its
output by score descending, so matches are not returned in corpus order
(the text-only match precedes the filename match in the corpus but
follows it in the output). -/
theorem keyword_output_not_corpus_order :
    Legacy.searchEvidence "lease" [leaseTextItem, leaseNameItem]
      = [(leaseNameItem, 45), (leaseTextItem, 9)]
    ∧ Legacy.searchEvidence "lease" [leaseTextItem, leaseNameItem]
      ≠ [(leaseTextItem, 9), (leaseNameItem, 45)] := by
  refine ⟨searchEvidence_lease, ?_⟩
  rw [searchEvidence_lease]
  simp [leaseTextItem, leaseNameItem, exampleItem]

/-- C9 (amended): the keyword scorer sorts its own output by score
descending before returning (a stable sort, ties in corpus order), rather
than leaving it in corpus order. -/
theorem keyword_output_sorted :
    ∀ (query : String) (items : List EvidenceItem),
      List.Sorted scoreGE (Legacy.searchEvidence query items) := by
  intro query items
  rw [Legacy.searchEvidence_eq]
  exact sorted_sortByScoreDesc _

/-- C10: the local hybrid combiner invokes the semantic scorer with
threshold 0.2, below the scorer default of 0.3, so a document whose
similarity lies in `[0.2, 0.3)` appears in the semantic results fused by
the combiner (and contributes to its output when the combined score is
positive) while being absent at the default threshold. -/
theorem hybrid_semantic_threshold_spec :
    ((1 / 5 : ℚ) < Legacy.defaultMinScore)
    ∧ (∀ (query : String) (qe : List ℚ) (kw sw : ℚ)
        (items : List EvidenceItem) (d : EvidenceItem) (emb : List ℚ),
        (items.map (fun i => i.id)).Nodup → d ∈ items →
        d.embedding = some emb → emb ≠ [] →
        (1 / 5 : ℝ) ≤ Legacy.cosineSimilarity qe emb →
        Legacy.cosineSimilarity qe emb < (3 / 10 : ℝ) →
        ((d, round (Legacy.cosineSimilarity qe emb * 100))
            ∈ Legacy.semanticSearch qe (1 / 5) items
          ∧ (∀ s : ℤ,
              (d, s) ∉ Legacy.semanticSearch qe Legacy.defaultMinScore items)
          ∧ (0 < round ((Legacy.kwScoreSpec query d : ℚ) * kw
                + (Legacy.semScoreSpec qe (1 / 5) d : ℚ) * sw) →
              (d, round ((Legacy.kwScoreSpec query d : ℚ) * kw
                + (Legacy.semScoreSpec qe (1 / 5) d : ℚ) * sw))
                ∈ Legacy.hybridSearch query (some qe) kw sw items))) := by
  constructor
  · norm_num [Legacy.defaultMinScore]
  · intro query qe kw sw items d emb hnd hd hemb hne hlo hhi
    refine ⟨?_, ?_, ?_⟩
    · rw [Legacy.mem_semanticSearch_iff]
      refine ⟨hd, emb, hemb, hne, ?_, rfl⟩
      push_cast
      exact hlo
    · intro s hs
      rw [Legacy.mem_semanticSearch_iff] at hs
      obtain ⟨_, emb2, hemb2, _, hsim2, _⟩ := hs
      rw [hemb, Option.some_inj] at hemb2
      rw [← hemb2] at hsim2
      have h310 : ((Legacy.defaultMinScore : ℚ) : ℝ) = (3 / 10 : ℝ) := by
        norm_num [Legacy.defaultMinScore]
      rw [h310] at hsim2
      exact absurd hsim2 (not_le.2 hhi)
    · intro hpos
      exact (Legacy.mem_hybridSearch_iff query qe kw sw items hnd d _).2
        ⟨hd, rfl, hpos⟩

/-- Witness for C10 with a document whose similarity is exactly 0.28. -/
theorem hybrid_semantic_threshold_spec_witness :
    (([midSimilarityItem].map (fun i => i.id)).Nodup
      ∧ midSimilarityItem ∈ [midSimilarityItem]
      ∧ midSimilarityItem.embedding = some [7, 24]
      ∧ ([7, 24] : List ℚ) ≠ []
      ∧ (1 / 5 : ℝ) ≤ Legacy.cosineSimilarity [1, 0] [7, 24]
      ∧ Legacy.cosineSimilarity [1, 0] [7, 24] < (3 / 10 : ℝ))
    ∧ ((midSimilarityItem, round (Legacy.cosineSimilarity [1, 0] [7, 24] * 100))
          ∈ Legacy.semanticSearch [1, 0] (1 / 5) [midSimilarityItem]
        ∧ (∀ s : ℤ, (midSimilarityItem, s)
            ∉ Legacy.semanticSearch [1, 0] Legacy.defaultMinScore
                [midSimilarityItem])
        ∧ (0 < round ((Legacy.kwScoreSpec "zzz" midSimilarityItem : ℚ) * (3 / 10)
              + (Legacy.semScoreSpec [1, 0] (1 / 5) midSimilarityItem : ℚ)
                * (7 / 10)) →
            (midSimilarityItem,
              round ((Legacy.kwScoreSpec "zzz" midSimilarityItem : ℚ) * (3 / 10)
                + (Legacy.semScoreSpec [1, 0] (1 / 5) midSimilarityItem : ℚ)
                  * (7 / 10)))
              ∈ Legacy.hybridSearch "zzz" (some [1, 0]) (3 / 10) (7 / 10)
                  [midSimilarityItem])) :=
  ⟨⟨by decide, by simp, rfl, by simp,
      by rw [cosine_midSim]; norm_num,
      by rw [cosine_midSim]; norm_num⟩,
    hybrid_semantic_threshold_spec.2 "zzz" [1, 0] (3 / 10) (7 / 10) [midSimilarityItem]
      midSimilarityItem [7, 24] (by decide) (by simp) rfl (by simp)
      (by rw [cosine_midSim]; norm_num)
      (by rw [cosine_midSim]; norm_num)⟩

end EvidenceTriage
